import Mathlib

/-!
# Verification of the pycornetto lexical-relation graph engine

This file gives a shallow embedding, in Lean 4, of the core of the
pycornetto package (`lib/cornetto/parse.py`, `lib/cornetto/cornet.py`,
`lib/cornetto/simcornet.py`) and proves properties of that embedding.

Modelling conventions, used throughout:

* Lexical units (`<cdb_lu>` `Element` objects in the Python source) are
  compared by object identity in Python; since the parser enforces unique
  `c_lu_id` values, identity coincides with the id.  Nodes of the graph are
  therefore natural numbers (the lexical-unit ids).
* The `networkx.MultiDiGraph` is modelled as a list of labelled edges
  `(from, to, relation)` in insertion order.  `out_edges_iter`
  (resp. `in_edges_iter`) over a node list is modelled by filtering the edge
  list per node of the list, which preserves the per-node insertion order
  that the adjacency structure yields; nodes absent from the graph are
  quietly ignored by networkx exactly as the filter yields nothing for them.
* Python `dict`s whose keys are nodes are modelled as association lists in
  insertion order; `x in d` is `(List.lookup x d).isSome`.
* Python strings are modelled as `List Char`.  `str.upper`/`str.lower` are
  modelled with `Char.toUpper`/`Char.toLower` (the data is ASCII),
  `str.strip` with dropping `Char.isWhitespace` on both ends.
* Fallible code (uncaught `IndexError`, `ValueError`) is modelled with
  `Option`/`Except`.
-/

namespace Pycornetto

/-! ## Basic string helpers (Python `str` operations) -/

/-- Python `str.split(sep)` for a one-character separator: the list of
(possibly empty) chunks between occurrences of `sep`.  Always non-empty. -/
def splitSep (sep : Char) : List Char → List (List Char)
  | [] => [[]]
  | c :: cs =>
    match splitSep sep cs with
    | [] => [[c]]
    | f :: rest => if c = sep then [] :: f :: rest else (c :: f) :: rest

/-- Python `str.lstrip()`. -/
def pyLStrip (s : List Char) : List Char := s.dropWhile Char.isWhitespace

/-- Python `str.strip()`: whitespace removed from both ends. -/
def pyStrip (s : List Char) : List Char :=
  ((s.dropWhile Char.isWhitespace).reverse.dropWhile Char.isWhitespace).reverse

/-- Python `str.upper()` (ASCII). -/
def pyUpper (s : List Char) : List Char := s.map Char.toUpper

theorem splitSep_ne_nil (sep : Char) (s : List Char) : splitSep sep s ≠ [] := by
  cases s with
  | nil => simp [splitSep]
  | cons c cs =>
    simp only [splitSep]
    cases h : splitSep sep cs with
    | nil => simp
    | cons f rest =>
      by_cases hc : c = sep <;> simp [hc]

/-- Splitting after appending a trailing separator appends one empty field. -/
theorem splitSep_append_sep (sep : Char) (s : List Char) :
    splitSep sep (s ++ [sep]) = splitSep sep s ++ [[]] := by
  induction s with
  | nil => simp [splitSep]
  | cons c cs ih =>
    simp only [List.cons_append, splitSep, List.append_eq]
    rw [ih]
    cases h : splitSep sep cs with
    | nil => exact absurd h (splitSep_ne_nil sep cs)
    | cons f rest =>
      simp only [h, List.cons_append]
      by_cases hc : c = sep <;> simp [hc]

/-! ## `Cornet._split_unit_spec` (cornet.py)

```
def _split_unit_spec(self, spec):
    spec = spec + 2 * self._unit_separator
    return spec.strip().split(self._unit_separator)[:3]
```
with `_unit_separator = ":"`. -/

def unitSeparator : Char := ':'

/-- `Cornet._split_unit_spec`: append two separators, strip, split, take 3. -/
def splitUnitSpec (spec : List Char) : List (List Char) :=
  (splitSep unitSeparator (pyStrip (spec ++ [unitSeparator, unitSeparator]))).take 3

theorem pyStrip_append_nonws (s : List Char) (c d : Char)
    (hc : ¬ c.isWhitespace) (hd : ¬ d.isWhitespace) :
    pyStrip (s ++ [c, d]) = pyLStrip s ++ [c, d] := by
  unfold pyStrip pyLStrip
  have h1 : List.dropWhile Char.isWhitespace (s ++ [c, d]) =
      List.dropWhile Char.isWhitespace s ++ [c, d] := by
    induction s with
    | nil => simp [List.dropWhile, hc]
    | cons a as ih =>
      by_cases ha : Char.isWhitespace a <;> simp [List.dropWhile, ha, ih]
  rw [h1]
  have h2 : (List.dropWhile Char.isWhitespace s ++ [c, d]).reverse =
      d :: c :: (List.dropWhile Char.isWhitespace s).reverse := by simp
  rw [h2]
  simp [List.dropWhile, hd]

/-! ## `Cornet._split_rel_spec` (cornet.py)

```
def _split_rel_spec(self, spec):
    if spec[-1] in "123456789":
        name, depth = spec[:-1], int(spec[-1])
    elif spec[-1] == "+":
        name, depth  = spec[:-1], 9
    else:
        name, depth = spec, 1
    return name.upper(), depth
```
`spec[-1]` raises `IndexError` on the empty string, modelled as `none`. -/

def digitChars : List Char := ['1', '2', '3', '4', '5', '6', '7', '8', '9']

/-- `Cornet._split_rel_spec`; `none` models the `IndexError` raised by
`spec[-1]` when `spec` is empty. -/
def splitRelSpec (spec : List Char) : Option (List Char × Nat) :=
  match spec.getLast? with
  | none => none
  | some c =>
    let nd : List Char × Nat :=
      if c ∈ digitChars then (spec.dropLast, c.toNat - 48)
      else if c = '+' then (spec.dropLast, 9)
      else (spec, 1)
    some (pyUpper nd.1, nd.2)

/-- `Cornet.set_max_depth` accepts exactly the depths `m` with
`0 < m < 10` (`if 0 < max_depth < 10`). -/
def validMaxDepth (m : Nat) : Prop := 0 < m ∧ m < 10

instance : DecidablePred validMaxDepth := fun m => by
  unfold validMaxDepth; infer_instance

/-- C8: parsing a lexical-unit spec splits the input on the `':'` separator
into exactly three fields (form, category, sense): the result is always the
3-element truncation of the split fields right-padded with empty fields.  In
particular the function is total — extra separators are tolerated via
right-padding (the two appended separators) and truncation, and no input is
ever rejected. -/
theorem C8_parse_unit_spec (spec : List Char) :
    (splitUnitSpec spec).length = 3 ∧
    splitUnitSpec spec = (splitSep unitSeparator (pyLStrip spec) ++ [[], []]).take 3 := by
  have hrw : splitUnitSpec spec
      = (splitSep unitSeparator (pyLStrip spec) ++ [[], []]).take 3 := by
    unfold splitUnitSpec
    rw [pyStrip_append_nonws spec unitSeparator unitSeparator (by decide) (by decide)]
    have hsplit : pyLStrip spec ++ [unitSeparator, unitSeparator]
        = (pyLStrip spec ++ [unitSeparator]) ++ [unitSeparator] := by simp
    rw [hsplit, splitSep_append_sep, splitSep_append_sep]
    simp
  refine ⟨?_, hrw⟩
  rw [hrw]
  cases hs : splitSep unitSeparator (pyLStrip spec) with
  | nil => exact absurd hs (splitSep_ne_nil unitSeparator (pyLStrip spec))
  | cons f rest => simp [List.length_take]

/-- C7 counterexample: the claim states that a relation spec ending in `'+'`
parses to the *configured* maximum search depth (configurable 1–9).  With the
valid configured maximum 5, `_split_rel_spec` still parses `"+"` to depth 9
(the constant hard-coded in the function), not 5. -/
theorem C7_counterexample :
    validMaxDepth 5 ∧ splitRelSpec ['+'] = some ([], 9) ∧
      (splitRelSpec ['+']).map Prod.snd ≠ some 5 := by decide

/-- C7 (amended): for every non-empty relation spec: if the last character is
a digit 1–9 the parsed depth is that digit's value (between 1 and 9) and the
name is the spec with the digit stripped; if the last character is `'+'` the
parsed depth is the constant 9 (the hard-coded system maximum — *not* the
configured maximum, which `get_related_lex_units` substitutes only for the
bare spec `"+"`); otherwise the whole spec is the name and the depth is 1.
The parsed name is upper-cased. -/
theorem C7_parse_rel_spec (spec : List Char) (c : Char) (h : spec.getLast? = some c) :
    (c ∈ digitChars → splitRelSpec spec = some (pyUpper spec.dropLast, c.toNat - 48)
        ∧ 1 ≤ c.toNat - 48 ∧ c.toNat - 48 ≤ 9) ∧
    (c = '+' → splitRelSpec spec = some (pyUpper spec.dropLast, 9)) ∧
    (c ∉ digitChars → c ≠ '+' → splitRelSpec spec = some (pyUpper spec, 1)) := by
  unfold splitRelSpec
  rw [h]
  refine ⟨fun h1 => ⟨by simp [h1], ?_, ?_⟩, fun h1 => by simp [h1, digitChars],
    fun h1 h2 => by simp [h1, h2]⟩
  · fin_cases h1 <;> decide
  · fin_cases h1 <;> decide

/-- Witness for C7: the relation spec `"h+"` parses to the upper-cased name
`"H"` and the hard-coded depth 9. -/
theorem C7_parse_rel_spec_witness :
    (['h', '+'] : List Char).getLast? = some '+' ∧
      splitRelSpec ['h', '+'] = some (pyUpper ['h'], 9) :=
  ⟨by decide, (C7_parse_rel_spec ['h', '+'] '+' (by decide)).2.1 rfl⟩

/-! ## The relation graph (parse.py)

Nodes are lexical-unit ids (`c_lu_id`; Python compares the `Element`
objects by identity and ids are unique, so identity coincides with id).
The `networkx.MultiDiGraph` is a list of `(from, to, relation)` edges in
insertion order. -/

abbrev Node := Nat

abbrev RelName := String

abbrev GEdge := Node × Node × RelName

structure Graph where
  edges : List GEdge
deriving DecidableEq

def Graph.empty : Graph := ⟨[]⟩

/-- `parse.add_edge`: self-referring relations are filtered out, as are
duplicate edges carrying an identical relation between the same ordered
pair; otherwise the edge is appended. -/
def addEdge (g : Graph) (fromNode toNode : Node) (relation : RelName) : Graph :=
  if fromNode = toNode then g
  else if (g.edges.filter (fun e => e.1 == fromNode && e.2.1 == toNode)).any
      (fun e => e.2.2 == relation) then g
  else ⟨g.edges ++ [(fromNode, toNode, relation)]⟩

/-- `parse._synonym_relations_to_edges`: add a `SYNONYM` edge between every
ordered pair of distinct members of a synset (the `c_sy_id` back-reference
bookkeeping mutates only node attributes, not edges, and is omitted here). -/
def synonymRelationsToEdges (members : List Node) (g : Graph) : Graph :=
  members.foldl (fun g fromNode =>
    members.foldl (fun g toNode =>
      if fromNode ≠ toNode then addEdge g fromNode toNode "SYNONYM" else g) g) g

/-- One `<cdb_synset>` record after XML parsing: its `c_sy_id`, its resolved
member lexical units (`sy_id2lus[c_sy_id]`), and its `wn_internal_relations`
as (relation name, target synset id) pairs. -/
structure SynsetRec where
  cSyId : String
  members : List Node
  relations : List (RelName × String)

/-- `parse._wn_internal_relations_to_edges`: for every relation of the
synset, resolve the target synset id through `sy_id2lus` (unresolvable
targets are skipped with a diagnostic) and add an edge from every member of
the source synset to every member of the target synset. -/
def wnInternalRelationsToEdges (syIdToLus : List (String × List Node))
    (syn : SynsetRec) (g : Graph) : Graph :=
  syn.relations.foldl (fun g rel =>
    match List.lookup rel.2 syIdToLus with
    | none => g
    | some toNodes =>
      syn.members.foldl (fun g fromNode =>
        toNodes.foldl (fun g toNode => addEdge g fromNode toNode rel.1) g) g) g

/-- `parse.parse_cdb` / `parse._relations_to_edges`, modelled from the point
where the XML has been parsed into synset records: the lexical-unit pass adds
only nodes, so the edge list starts empty, and each synset record contributes
its synonym edges followed by its wn-internal relation edges, all through
`addEdge`.  The `sy_id2lus` resolution table is passed in explicitly: in the
source it is derived from the records, and the invariants below hold for
every table and every record list, hence in particular for the derived table
and for every iteration order of the `set(sy_id2synset.values())` loop. -/
def parseCdbGraph (synsets : List SynsetRec)
    (syIdToLus : List (String × List Node)) : Graph :=
  synsets.foldl (fun g syn =>
    wnInternalRelationsToEdges syIdToLus syn (synonymRelationsToEdges syn.members g))
    Graph.empty

/-- No edge connects a node to itself. -/
def noSelfLoops (g : Graph) : Prop := ∀ e ∈ g.edges, e.1 ≠ e.2.1

/-- For every ordered pair of nodes and relation name, at most one edge. -/
def noDupRelEdges (g : Graph) : Prop := ∀ e : GEdge, g.edges.count e ≤ 1

def EdgeInv (g : Graph) : Prop := noSelfLoops g ∧ noDupRelEdges g

theorem addEdge_edgeInv (g : Graph) (u v : Node) (r : RelName) (h : EdgeInv g) :
    EdgeInv (addEdge g u v r) := by
  obtain ⟨h1, h2⟩ := h
  unfold addEdge
  by_cases huv : u = v
  · simpa [huv] using ⟨h1, h2⟩
  · simp only [huv, if_false]
    by_cases hdup : (g.edges.filter (fun e => e.1 == u && e.2.1 == v)).any
        (fun e => e.2.2 == r) = true
    · simpa [hdup] using ⟨h1, h2⟩
    · rw [if_neg hdup]
      constructor
      · intro e he
        rcases List.mem_append.mp he with he' | he'
        · exact h1 e he'
        · simp only [List.mem_singleton] at he'
          subst he'
          exact huv
      · intro e
        rw [List.count_append]
        by_cases hee : e = (u, v, r)
        · subst hee
          have hz : g.edges.count (u, v, r) = 0 := by
            rw [List.count_eq_zero]
            intro hmem
            apply hdup
            rw [List.any_eq_true]
            refine ⟨(u, v, r), ?_, by simp⟩
            rw [List.mem_filter]
            exact ⟨hmem, by simp⟩
          simp [hz, List.count_singleton]
        · have : List.count e [(u, v, r)] = 0 := by
            rw [List.count_eq_zero]
            simpa using hee
          rw [this]
          simpa using h2 e

theorem foldl_edgeInv {α : Type} (f : Graph → α → Graph)
    (hf : ∀ g a, EdgeInv g → EdgeInv (f g a)) :
    ∀ (l : List α) (g : Graph), EdgeInv g → EdgeInv (l.foldl f g) := by
  intro l
  induction l with
  | nil => exact fun g hg => hg
  | cons a as ih => exact fun g hg => ih _ (hf g a hg)

theorem synonymRelationsToEdges_edgeInv (members : List Node) (g : Graph)
    (h : EdgeInv g) : EdgeInv (synonymRelationsToEdges members g) := by
  unfold synonymRelationsToEdges
  refine foldl_edgeInv _ (fun g fromNode hg => ?_) members g h
  refine foldl_edgeInv _ (fun g toNode hg => ?_) members g hg
  by_cases hne : fromNode ≠ toNode
  · simpa [hne] using addEdge_edgeInv g fromNode toNode "SYNONYM" hg
  · simpa [hne] using hg

theorem wnInternalRelationsToEdges_edgeInv (syIdToLus : List (String × List Node))
    (syn : SynsetRec) (g : Graph) (h : EdgeInv g) :
    EdgeInv (wnInternalRelationsToEdges syIdToLus syn g) := by
  unfold wnInternalRelationsToEdges
  refine foldl_edgeInv _ (fun g rel hg => ?_) syn.relations g h
  cases List.lookup rel.2 syIdToLus with
  | none => exact hg
  | some toNodes =>
    refine foldl_edgeInv _ (fun g fromNode hg => ?_) syn.members g hg
    exact foldl_edgeInv _ (fun g toNode hg => addEdge_edgeInv g fromNode toNode rel.1 hg)
      toNodes g hg

/-- C3: every graph produced by the graph construction (`parse_cdb`) has no
self-loop edge, and for every ordered pair of nodes and every relation name
at most one edge with that relation name connects that pair — regardless of
how many synonym or wn-internal relation records in the input would induce
duplicate or self-loop edges. -/
theorem C3_graph_invariants (synsets : List SynsetRec)
    (syIdToLus : List (String × List Node)) :
    noSelfLoops (parseCdbGraph synsets syIdToLus) ∧
      noDupRelEdges (parseCdbGraph synsets syIdToLus) := by
  unfold parseCdbGraph
  refine foldl_edgeInv _ (fun g syn hg => ?_) synsets Graph.empty ⟨?_, ?_⟩
  · exact wnInternalRelationsToEdges_edgeInv syIdToLus syn _
      (synonymRelationsToEdges_edgeInv syn.members g hg)
  · intro e he
    simp [Graph.empty] at he
  · intro e
    simp [Graph.empty]

/-- Witness for C3: a synset with members 1 and 2 and a duplicate-inducing
second record still yields no self-loop at the concrete SYNONYM edge and at
most one copy of it. -/
theorem C3_graph_invariants_witness :
    (1 : Node) ≠ 2 ∧
      (parseCdbGraph [⟨"s", [1, 2], []⟩, ⟨"s", [1, 2], []⟩] []).edges.count
        (1, 2, "SYNONYM") ≤ 1 :=
  ⟨(C3_graph_invariants [⟨"s", [1, 2], []⟩, ⟨"s", [1, 2], []⟩] []).1
      (1, 2, "SYNONYM") (by decide),
   (C3_graph_invariants [⟨"s", [1, 2], []⟩, ⟨"s", [1, 2], []⟩] []).2 (1, 2, "SYNONYM")⟩

/-! ## Traversal engine (cornet.py): shared search infrastructure -/

/-- `Cornet._rel_has_name`: an empty requested name matches any relation,
otherwise the edge's relation must equal the requested name. -/
def relHasName (edgeRel : RelName) (name : RelName) : Bool :=
  name == "" || edgeRel == name

/-- `graph.out_edges_iter(queue, data=True)`: the out-edges of the queue's
nodes, iterated per node in queue order (each node's edges in insertion
order; nodes absent from the graph contribute nothing). -/
def outEdges (g : Graph) (queue : List Node) : List GEdge :=
  queue.flatMap (fun u => g.edges.filter (fun e => e.1 == u))

/-- `graph.in_edges_iter(queue, data=True)`: the in-edges of the queue's
nodes, iterated per node in queue order. -/
def inEdges (g : Graph) (queue : List Node) : List GEdge :=
  queue.flatMap (fun u => g.edges.filter (fun e => e.2.1 == u))

/-- A directed walk of exactly `n` edges from `x` to `y`, every edge of which
matches the relation-name filter `rel` in the sense of `relHasName`. -/
inductive ReachN (g : Graph) (rel : RelName) : Nat → Node → Node → Prop
  | refl (x : Node) : ReachN g rel 0 x x
  | step {n : Nat} {x y z : Node} {r : RelName} :
      ReachN g rel n x y → (y, z, r) ∈ g.edges → relHasName r rel = true →
      ReachN g rel (n + 1) x z

/-- Some walk of exactly `n` matching edges from a member of `S` to `x`. -/
def PathFrom (g : Graph) (rel : RelName) (S : List Node) (n : Nat) (x : Node) : Prop :=
  ∃ s ∈ S, ReachN g rel n s x

theorem ReachN.trans {g : Graph} {rel : RelName} {m n : Nat} {x y z : Node}
    (h1 : ReachN g rel m x y) (h2 : ReachN g rel n y z) :
    ReachN g rel (m + n) x z := by
  induction h2 with
  | refl => simpa using h1
  | step h e hr ih => exact (ih h1).step e hr

/-- Any walk of length `m` can be split at position `i ≤ m`. -/
theorem ReachN.split {g : Graph} {rel : RelName} {m : Nat} {x z : Node}
    (h : ReachN g rel m x z) :
    ∀ i ≤ m, ∃ y, ReachN g rel i x y ∧ ReachN g rel (m - i) y z := by
  induction h with
  | refl x =>
    intro i hi
    interval_cases i
    exact ⟨x, ReachN.refl x, ReachN.refl x⟩
  | @step n x y z r h e hr ih =>
    intro i hi
    rcases Nat.lt_or_ge i (n + 1) with hlt | hge
    · obtain ⟨w, hw1, hw2⟩ := ih i (Nat.lt_succ_iff.mp hlt)
      refine ⟨w, hw1, ?_⟩
      have : n + 1 - i = (n - i) + 1 := by omega
      rw [this]
      exact hw2.step e hr
    · have : i = n + 1 := le_antisymm hi hge
      subst this
      exact ⟨z, h.step e hr, by simpa using ReachN.refl z⟩

theorem mem_outEdges {g : Graph} {queue : List Node} {e : GEdge} :
    e ∈ outEdges g queue ↔ e.1 ∈ queue ∧ e ∈ g.edges := by
  unfold outEdges
  rw [List.mem_flatMap]
  constructor
  · rintro ⟨u, hu, he⟩
    rw [List.mem_filter] at he
    obtain ⟨he, hb⟩ := he
    have : e.1 = u := by simpa using hb
    exact ⟨this ▸ hu, he⟩
  · rintro ⟨h1, h2⟩
    exact ⟨e.1, h1, List.mem_filter.mpr ⟨h2, by simp⟩⟩

theorem mem_inEdges {g : Graph} {queue : List Node} {e : GEdge} :
    e ∈ inEdges g queue ↔ e.2.1 ∈ queue ∧ e ∈ g.edges := by
  unfold inEdges
  rw [List.mem_flatMap]
  constructor
  · rintro ⟨u, hu, he⟩
    rw [List.mem_filter] at he
    obtain ⟨he, hb⟩ := he
    have : e.2.1 = u := by simpa using hb
    exact ⟨this ▸ hu, he⟩
  · rintro ⟨h1, h2⟩
    exact ⟨e.2.1, h1, List.mem_filter.mpr ⟨h2, by simp⟩⟩

/-! ### Association-list helpers (Python `dict`s in insertion order) -/

section AssocHelpers

variable {β : Type}

theorem lookup_append (a : Node) (l l' : List (Node × β)) :
    List.lookup a (l ++ l') = (List.lookup a l).or (List.lookup a l') := by
  induction l with
  | nil => simp [List.lookup]
  | cons p ps ih =>
    obtain ⟨k, v⟩ := p
    by_cases h : a = k
    · simp [List.lookup, h]
    · have hb : (a == k) = false := by simpa using h
      simp [List.lookup, hb, ih]

theorem lookup_append_of_isSome {a : Node} {l : List (Node × β)} (l' : List (Node × β))
    (h : (List.lookup a l).isSome) :
    List.lookup a (l ++ l') = List.lookup a l := by
  rw [lookup_append]
  cases hl : List.lookup a l with
  | none => rw [hl] at h; simp at h
  | some v => simp

theorem lookup_append_left {a : Node} {l : List (Node × β)} {b : β} (l' : List (Node × β))
    (h : List.lookup a l = some b) : List.lookup a (l ++ l') = some b := by
  rw [lookup_append, h]
  rfl

theorem lookup_append_right {a : Node} {l : List (Node × β)} (l' : List (Node × β))
    (h : List.lookup a l = none) : List.lookup a (l ++ l') = List.lookup a l' := by
  rw [lookup_append, h]
  rfl

theorem lookup_cons (a k : Node) (v : β) (l : List (Node × β)) :
    List.lookup a ((k, v) :: l) = if a = k then some v else List.lookup a l := by
  by_cases h : a = k
  · simp [List.lookup, h]
  · have hb : (a == k) = false := by simpa using h
    simp [List.lookup, hb, h]

theorem lookup_append_singleton_ne {a k : Node} {v : β} {l : List (Node × β)}
    (h : a ≠ k) : List.lookup a (l ++ [(k, v)]) = List.lookup a l := by
  rw [lookup_append]
  cases hl : List.lookup a l with
  | none =>
    rw [lookup_cons, if_neg h]
    rfl
  | some w => rfl

theorem lookup_mem {a : Node} {b : β} {l : List (Node × β)}
    (h : List.lookup a l = some b) : (a, b) ∈ l := by
  induction l with
  | nil => simp [List.lookup] at h
  | cons p ps ih =>
    obtain ⟨k, v⟩ := p
    by_cases hk : a = k
    · subst hk
      simp [List.lookup] at h
      simp [h]
    · have hb : (a == k) = false := by simpa using hk
      simp [List.lookup, hb] at h
      exact List.mem_cons_of_mem _ (ih h)

end AssocHelpers

/-! ## `Cornet._transitive_closure` (cornet.py)

```
queue = lus
lus = dict.fromkeys(lus)
next_queue = []
distance = 0
successors = {}
while queue:
    out_edges = self._graph.out_edges_iter(queue, data=True)
    for from_lu, to_lu, edge in out_edges:
        if (self._rel_has_name(edge, rel_name) and to_lu not in successors):
            successors[to_lu] = distance + 1
            if to_lu not in lus:
                next_queue.append(to_lu)
    queue, next_queue = next_queue, []
    distance += 1
return successors
```
-/

/-- The body of the `for from_lu, to_lu, edge in out_edges` loop: record each
matching, not-yet-recorded target at `distance + 1` and enqueue it unless it
is one of the original seed units. -/
def tcScan (rel : RelName) (seeds : List Node) (dist : Nat) :
    List GEdge → List (Node × Nat) → List Node → List (Node × Nat) × List Node
  | [], succs, nextQueue => (succs, nextQueue)
  | e :: es, succs, nextQueue =>
    if relHasName e.2.2 rel && (List.lookup e.2.1 succs).isNone then
      tcScan rel seeds dist es (succs ++ [(e.2.1, dist + 1)])
        (if seeds.contains e.2.1 then nextQueue else nextQueue ++ [e.2.1])
    else
      tcScan rel seeds dist es succs nextQueue

/-- The `while queue` loop of `_transitive_closure`.  The `fuel` argument
only bounds the number of rounds; `transitiveClosure` passes a bound that is
proved below to always suffice (each node is enqueued at most once). -/
def tcLoop (g : Graph) (rel : RelName) (seeds : List Node) :
    Nat → List Node → Nat → List (Node × Nat) → List (Node × Nat)
  | 0, _, _, succs => succs
  | fuel + 1, queue, dist, succs =>
    if queue.isEmpty then succs
    else
      let sn := tcScan rel seeds dist (outEdges g queue) succs []
      tcLoop g rel seeds fuel sn.2 (dist + 1) sn.1

/-- `Cornet._transitive_closure`: breadth-first expansion from the seed set
following only matching edges; returns the successors map. -/
def transitiveClosure (g : Graph) (rel : RelName) (lus : List Node) :
    List (Node × Nat) :=
  tcLoop g rel lus (g.edges.length + 2) lus 0 []

/-- The matching targets of an edge list. -/
def matchTargets (rel : RelName) (es : List GEdge) : List Node :=
  (es.filter (fun e => relHasName e.2.2 rel)).map (fun e => e.2.1)

theorem tcScan_lookup_preserve {rel : RelName} {seeds : List Node} {dist : Nat} :
    ∀ {es : List GEdge} {succs : List (Node × Nat)} {q0 : List Node} {x : Node} {d : Nat},
      List.lookup x succs = some d →
      List.lookup x (tcScan rel seeds dist es succs q0).1 = some d := by
  intro es
  induction es with
  | nil => intro succs q0 x d h; simpa [tcScan] using h
  | cons e es ih =>
    intro succs q0 x d h
    unfold tcScan
    by_cases hc : (relHasName e.2.2 rel && (List.lookup e.2.1 succs).isNone) = true
    · rw [if_pos hc]
      apply ih
      rw [lookup_append, h]
      simp
    · rw [if_neg hc]
      exact ih h

theorem tcScan_lookup_src {rel : RelName} {seeds : List Node} {dist : Nat} :
    ∀ {es : List GEdge} {succs : List (Node × Nat)} {q0 : List Node} {x : Node} {d : Nat},
      List.lookup x (tcScan rel seeds dist es succs q0).1 = some d →
      List.lookup x succs = some d ∨
        (d = dist + 1 ∧ List.lookup x succs = none ∧ x ∈ matchTargets rel es) := by
  intro es
  induction es with
  | nil => intro succs q0 x d h; exact Or.inl (by simpa [tcScan] using h)
  | cons e es ih =>
    intro succs q0 x d h
    have htail : ∀ {y : Node}, y ∈ matchTargets rel es → y ∈ matchTargets rel (e :: es) := by
      intro y hy
      unfold matchTargets at hy ⊢
      rw [List.mem_map] at hy
      obtain ⟨e', he', hx⟩ := hy
      rw [List.mem_map]
      exact ⟨e', List.mem_filter.mpr
        ⟨List.mem_cons_of_mem _ (List.mem_filter.mp he').1, (List.mem_filter.mp he').2⟩, hx⟩
    unfold tcScan at h
    by_cases hc : (relHasName e.2.2 rel && (List.lookup e.2.1 succs).isNone) = true
    · rw [if_pos hc] at h
      rcases ih h with h' | ⟨hd, hnone, hmem⟩
      · cases hl : List.lookup x succs with
        | some v =>
          rw [lookup_append_left _ hl] at h'
          exact Or.inl h'
        | none =>
          rw [lookup_append_right _ hl] at h'
          rw [show ([(e.2.1, dist + 1)] : List (Node × Nat)) = (e.2.1, dist + 1) :: [] from rfl,
            lookup_cons] at h'
          by_cases hx : x = e.2.1
          · rw [if_pos hx] at h'
            right
            refine ⟨(Option.some_inj.mp h').symm, rfl, ?_⟩
            simp only [Bool.and_eq_true] at hc
            unfold matchTargets
            rw [List.mem_map]
            exact ⟨e, List.mem_filter.mpr ⟨List.mem_cons_self _ _, hc.1⟩, hx.symm⟩
          · rw [if_neg hx] at h'
            simp [List.lookup] at h'
      · have hl : List.lookup x succs = none := by
          cases hq : List.lookup x succs with
          | none => rfl
          | some v => rw [lookup_append_left _ hq] at hnone; simp at hnone
        exact Or.inr ⟨hd, hl, htail hmem⟩
    · rw [if_neg hc] at h
      rcases ih h with h' | ⟨hd, hnone, hmem⟩
      · exact Or.inl h'
      · exact Or.inr ⟨hd, hnone, htail hmem⟩

theorem tcScan_complete {rel : RelName} {seeds : List Node} {dist : Nat} :
    ∀ {es : List GEdge} {succs : List (Node × Nat)} {q0 : List Node} {x : Node},
      x ∈ matchTargets rel es →
      (List.lookup x (tcScan rel seeds dist es succs q0).1).isSome := by
  intro es
  induction es with
  | nil => intro succs q0 x h; simp [matchTargets] at h
  | cons e es ih =>
    intro succs q0 x h
    unfold matchTargets at h
    rw [List.filter_cons] at h
    by_cases hm : relHasName e.2.2 rel = true
    · rw [if_pos hm] at h
      simp only [List.map_cons, List.mem_cons] at h
      rcases h with h | h
      · subst h
        unfold tcScan
        by_cases hc : (relHasName e.2.2 rel && (List.lookup e.2.1 succs).isNone) = true
        · rw [if_pos hc]
          have : List.lookup e.2.1 (succs ++ [(e.2.1, dist + 1)]) = some (dist + 1) := by
            simp only [Bool.and_eq_true, Option.isNone_iff_eq_none] at hc
            rw [lookup_append_right _ hc.2, lookup_cons, if_pos rfl]
          rw [tcScan_lookup_preserve this]
          simp
        · rw [if_neg hc]
          simp only [Bool.and_eq_true, not_and, Option.isNone_iff_eq_none] at hc
          have := hc hm
          cases hl : List.lookup e.2.1 succs with
          | none => exact absurd hl this
          | some v =>
            rw [tcScan_lookup_preserve hl]
            simp
      · have hmem : x ∈ matchTargets rel es := by
          unfold matchTargets; exact h
        unfold tcScan
        by_cases hc : (relHasName e.2.2 rel && (List.lookup e.2.1 succs).isNone) = true
        · rw [if_pos hc]; exact ih hmem
        · rw [if_neg hc]; exact ih hmem
    · rw [if_neg hm] at h
      have hmem : x ∈ matchTargets rel es := by
        unfold matchTargets; exact h
      unfold tcScan
      by_cases hc : (relHasName e.2.2 rel && (List.lookup e.2.1 succs).isNone) = true
      · rw [if_pos hc]; exact ih hmem
      · rw [if_neg hc]; exact ih hmem

theorem tcScan_queue_mono {rel : RelName} {seeds : List Node} {dist : Nat} :
    ∀ {es : List GEdge} {succs : List (Node × Nat)} {q0 : List Node} {x : Node},
      x ∈ q0 → x ∈ (tcScan rel seeds dist es succs q0).2 := by
  intro es
  induction es with
  | nil => intro succs q0 x h; simpa [tcScan] using h
  | cons e es ih =>
    intro succs q0 x h
    unfold tcScan
    by_cases hc : (relHasName e.2.2 rel && (List.lookup e.2.1 succs).isNone) = true
    · rw [if_pos hc]
      apply ih
      by_cases hs : seeds.contains e.2.1 = true
      · rw [if_pos hs]
        exact h
      · rw [if_neg hs]
        exact List.mem_append.mpr (Or.inl h)
    · rw [if_neg hc]
      exact ih h

theorem tcScan_queue_mem {rel : RelName} {seeds : List Node} {dist : Nat} :
    ∀ {es : List GEdge} {succs : List (Node × Nat)} {q0 : List Node} {x : Node},
      x ∈ (tcScan rel seeds dist es succs q0).2 ↔
        x ∈ q0 ∨ (seeds.contains x = false ∧ List.lookup x succs = none ∧
          x ∈ matchTargets rel es) := by
  intro es
  induction es with
  | nil =>
    intro succs q0 x
    simp [tcScan, matchTargets]
  | cons e es ih =>
    intro succs q0 x
    have htail : ∀ {y : Node}, y ∈ matchTargets rel es → y ∈ matchTargets rel (e :: es) := by
      intro y hy
      unfold matchTargets at hy ⊢
      rw [List.mem_map] at hy
      obtain ⟨e', he', hx⟩ := hy
      rw [List.mem_map]
      exact ⟨e', List.mem_filter.mpr
        ⟨List.mem_cons_of_mem _ (List.mem_filter.mp he').1, (List.mem_filter.mp he').2⟩, hx⟩
    have hhead : ∀ {y : Node}, y ∈ matchTargets rel (e :: es) →
        (y = e.2.1 ∧ relHasName e.2.2 rel = true) ∨ y ∈ matchTargets rel es := by
      intro y hy
      unfold matchTargets at hy
      rw [List.mem_map] at hy
      obtain ⟨e', he', hx⟩ := hy
      rw [List.mem_filter] at he'
      rcases List.mem_cons.mp he'.1 with he'' | he''
      · subst he''
        exact Or.inl ⟨hx.symm, he'.2⟩
      · right
        unfold matchTargets
        rw [List.mem_map]
        exact ⟨e', List.mem_filter.mpr ⟨he'', he'.2⟩, hx⟩
    unfold tcScan
    by_cases hc : (relHasName e.2.2 rel && (List.lookup e.2.1 succs).isNone) = true
    · rw [if_pos hc]
      rw [ih]
      simp only [Bool.and_eq_true, Option.isNone_iff_eq_none] at hc
      constructor
      · rintro (hq | ⟨hseed, hfresh, hmem⟩)
        · by_cases hs : seeds.contains e.2.1 = true
          · rw [if_pos hs] at hq
            exact Or.inl hq
          · rw [if_neg hs] at hq
            rcases List.mem_append.mp hq with hq' | hq'
            · exact Or.inl hq'
            · simp only [List.mem_singleton] at hq'
              subst hq'
              refine Or.inr ⟨by simpa using hs, hc.2, ?_⟩
              unfold matchTargets
              rw [List.mem_map]
              exact ⟨e, List.mem_filter.mpr ⟨List.mem_cons_self _ _, hc.1⟩, rfl⟩
        · by_cases hx : x = e.2.1
          · subst hx
            rw [lookup_append_right _ hc.2, lookup_cons, if_pos rfl] at hfresh
            simp at hfresh
          · rw [lookup_append_singleton_ne hx] at hfresh
            exact Or.inr ⟨hseed, hfresh, htail hmem⟩
      · rintro (hq | ⟨hseed, hfresh, hmem⟩)
        · left
          by_cases hs : seeds.contains e.2.1 = true
          · rw [if_pos hs]; exact hq
          · rw [if_neg hs]; exact List.mem_append.mpr (Or.inl hq)
        · rcases hhead hmem with ⟨hx, _⟩ | hmem'
          · subst hx
            left
            rw [if_neg (by simpa using hseed)]
            exact List.mem_append.mpr (Or.inr (List.mem_singleton.mpr rfl))
          · by_cases hx : x = e.2.1
            · subst hx
              left
              rw [if_neg (by simpa using hseed)]
              exact List.mem_append.mpr (Or.inr (List.mem_singleton.mpr rfl))
            · right
              refine ⟨hseed, ?_, hmem'⟩
              rw [lookup_append_singleton_ne hx]
              exact hfresh
    · rw [if_neg hc]
      rw [ih]
      constructor
      · rintro (hq | ⟨hseed, hfresh, hmem⟩)
        · exact Or.inl hq
        · exact Or.inr ⟨hseed, hfresh, htail hmem⟩
      · rintro (hq | ⟨hseed, hfresh, hmem⟩)
        · exact Or.inl hq
        · rcases hhead hmem with ⟨hx, hm⟩ | hmem'
          · subst hx
            exfalso
            apply hc
            simp only [Bool.and_eq_true, Option.isNone_iff_eq_none]
            exact ⟨hm, hfresh⟩
          · exact Or.inr ⟨hseed, hfresh, hmem'⟩

theorem ReachN.eq_of_zero {g : Graph} {rel : RelName} {x y : Node}
    (h : ReachN g rel 0 x y) : x = y := by
  cases h
  rfl

/-- The BFS frontier after `r` rounds: at round 0 the seed units themselves,
afterwards the units whose least *positive* matching distance from the seed
set is exactly `r` and which are not seed units. -/
def Frontier (g : Graph) (rel : RelName) (S : List Node) : Nat → Node → Prop
  | 0, x => x ∈ S
  | r + 1, x => x ∉ S ∧ PathFrom g rel S (r + 1) x ∧
      ∀ j, 1 ≤ j → j < r + 1 → ¬ PathFrom g rel S j x

theorem Frontier.pathFrom {g : Graph} {rel : RelName} {S : List Node} {r : Nat} {x : Node}
    (h : Frontier g rel S r x) : PathFrom g rel S r x := by
  cases r with
  | zero => exact ⟨x, h, ReachN.refl x⟩
  | succ r => exact h.2.1

/-- Invariant of the `_transitive_closure` loop at the start of round `r`
(`distance = r`): the successors map holds exactly the units whose least
positive matching distance from the seed set is at most `r`, mapped to that
distance, and the queue is exactly the frontier. -/
structure TCInv (g : Graph) (rel : RelName) (S : List Node) (queue : List Node)
    (r : Nat) (succs : List (Node × Nat)) : Prop where
  values : ∀ x d, List.lookup x succs = some d →
    1 ≤ d ∧ d ≤ r ∧ PathFrom g rel S d x ∧ ∀ j, 1 ≤ j → PathFrom g rel S j x → d ≤ j
  complete : ∀ x j, 1 ≤ j → j ≤ r → PathFrom g rel S j x →
    (List.lookup x succs).isSome
  queueIff : ∀ x, x ∈ queue ↔ Frontier g rel S r x

/-- If `x` has a matching walk of length `r + 1` whose last edge leaves `y`,
and no positive walk to `x` of length at most `r` exists, then `y` is on the
round-`r` queue. -/
theorem pred_in_queue {g : Graph} {rel : RelName} {S : List Node} {queue : List Node}
    {r : Nat} {succs : List (Node × Nat)} (inv : TCInv g rel S queue r succs)
    {s y x : Node} {er : RelName}
    (hs : s ∈ S) (hry : ReachN g rel r s y)
    (hedge : (y, x, er) ∈ g.edges) (hmatch : relHasName er rel = true)
    (hmin : ∀ j, 1 ≤ j → j ≤ r → ¬ PathFrom g rel S j x) :
    y ∈ queue := by
  cases r with
  | zero =>
    have := hry.eq_of_zero
    subst this
    exact (inv.queueIff s).mpr hs
  | succ r' =>
    by_cases hyS : y ∈ S
    · exact absurd ⟨y, hyS, (ReachN.refl y).step hedge hmatch⟩
        (hmin 1 le_rfl (Nat.one_le_iff_ne_zero.mpr (Nat.succ_ne_zero r')))
    · by_cases hshort : ∃ j, 1 ≤ j ∧ j < r' + 1 ∧ PathFrom g rel S j y
      · obtain ⟨j, hj1, hj2, s', hs', hr'⟩ := hshort
        exact absurd ⟨s', hs', hr'.step hedge hmatch⟩
          (hmin (j + 1) (Nat.le_add_left 1 j) (Nat.succ_le_succ (Nat.le_of_lt_succ hj2)))
      · refine (inv.queueIff y).mpr ⟨hyS, ⟨s, hs, hry⟩, ?_⟩
        intro j h1 h2 hp
        exact hshort ⟨j, h1, h2, hp⟩

/-- One full round of the `_transitive_closure` loop re-establishes the
invariant at round `r + 1`. -/
theorem tcRound {g : Graph} {rel : RelName} {S : List Node} {queue : List Node}
    {r : Nat} {succs : List (Node × Nat)} (inv : TCInv g rel S queue r succs) :
    TCInv g rel S (tcScan rel S r (outEdges g queue) succs []).2 (r + 1)
      (tcScan rel S r (outEdges g queue) succs []).1 := by
  have hmt : ∀ {x : Node}, x ∈ matchTargets rel (outEdges g queue) →
      ∃ y er, y ∈ queue ∧ (y, x, er) ∈ g.edges ∧ relHasName er rel = true := by
    intro x hx
    unfold matchTargets at hx
    rw [List.mem_map] at hx
    obtain ⟨e, he, hx⟩ := hx
    rw [List.mem_filter] at he
    obtain ⟨he, hm⟩ := he
    rw [mem_outEdges] at he
    obtain ⟨e1, e2, e3⟩ := e
    cases hx
    exact ⟨e1, e3, he.1, he.2, hm⟩
  have hmt' : ∀ {y x : Node} {er : RelName},
      y ∈ queue → (y, x, er) ∈ g.edges → relHasName er rel = true →
      x ∈ matchTargets rel (outEdges g queue) := by
    intro y x er hy he hm
    unfold matchTargets
    rw [List.mem_map]
    exact ⟨(y, x, er), List.mem_filter.mpr ⟨mem_outEdges.mpr ⟨hy, he⟩, hm⟩, rfl⟩
  refine ⟨?_, ?_, ?_⟩
  · -- values
    intro x d hl
    rcases tcScan_lookup_src hl with hold | ⟨hd, hfresh, hmem⟩
    · obtain ⟨h1, h2, h3, h4⟩ := inv.values x d hold
      exact ⟨h1, Nat.le_succ_of_le h2, h3, h4⟩
    · subst hd
      obtain ⟨y, er, hyq, hedge, hm⟩ := hmt hmem
      obtain ⟨s, hs, hry⟩ := ((inv.queueIff y).mp hyq).pathFrom
      refine ⟨Nat.le_add_left 1 r, le_rfl, ⟨s, hs, hry.step hedge hm⟩, ?_⟩
      intro j hj1 hjp
      by_contra hlt
      push_neg at hlt
      have := inv.complete x j hj1 (Nat.lt_succ_iff.mp hlt) hjp
      rw [hfresh] at this
      simp at this
  · -- completeness
    intro x j hj1 hjr hjp
    have hold : ∀ j', 1 ≤ j' → j' ≤ r → PathFrom g rel S j' x →
        (List.lookup x (tcScan rel S r (outEdges g queue) succs []).1).isSome := by
      intro j' h1 h2 h3
      obtain ⟨d, hd⟩ := Option.isSome_iff_exists.mp (inv.complete x j' h1 h2 h3)
      rw [tcScan_lookup_preserve hd]
      simp
    rcases Nat.lt_or_ge j (r + 1) with hlt | hge
    · exact hold j hj1 (Nat.lt_succ_iff.mp hlt) hjp
    · have heq : j = r + 1 := le_antisymm hjr hge
      subst heq
      by_cases hshort : ∃ j', 1 ≤ j' ∧ j' ≤ r ∧ PathFrom g rel S j' x
      · obtain ⟨j', h1, h2, h3⟩ := hshort
        exact hold j' h1 h2 h3
      · obtain ⟨s, hs, hreach⟩ := hjp
        cases hreach with
        | step hry hedge hm =>
          have hyq := pred_in_queue inv hs hry hedge hm
            (fun j h1 h2 hp => hshort ⟨j, h1, h2, hp⟩)
          exact tcScan_complete (hmt' hyq hedge hm)
  · -- queue characterization
    intro x
    rw [tcScan_queue_mem]
    simp only [List.not_mem_nil, false_or]
    constructor
    · rintro ⟨hseed, hfresh, hmem⟩
      obtain ⟨y, er, hyq, hedge, hm⟩ := hmt hmem
      obtain ⟨s, hs, hry⟩ := ((inv.queueIff y).mp hyq).pathFrom
      refine ⟨?_, ⟨s, hs, hry.step hedge hm⟩, ?_⟩
      · simpa using hseed
      · intro j h1 h2 hp
        obtain ⟨d, hd⟩ := Option.isSome_iff_exists.mp
          (inv.complete x j h1 (Nat.lt_succ_iff.mp h2) hp)
        rw [hd] at hfresh
        exact Option.noConfusion hfresh
    · rintro ⟨hxS, hpath, hmin⟩
      have hseed : S.contains x = false := by simpa using hxS
      have hfresh : List.lookup x succs = none := by
        cases hq : List.lookup x succs with
        | none => rfl
        | some d =>
          obtain ⟨h1, h2, h3, _⟩ := inv.values x d hq
          exact absurd h3 (hmin d h1 (Nat.lt_succ_of_le h2))
      refine ⟨hseed, hfresh, ?_⟩
      obtain ⟨s, hs, hreach⟩ := hpath
      cases hreach with
      | step hry hedge hm =>
        have hyq := pred_in_queue inv hs hry hedge hm
          (fun j h1 h2 hp => hmin j h1 (Nat.lt_succ_of_le h2) hp)
        exact hmt' hyq hedge hm

/-- When the queue has emptied, every unit with a positive matching walk from
the seed set is already recorded. -/
theorem tc_terminal_complete {g : Graph} {rel : RelName} {S : List Node}
    {queue : List Node} {r : Nat} {succs : List (Node × Nat)}
    (inv : TCInv g rel S queue r succs) (hq : queue = []) :
    ∀ j x, 1 ≤ j → PathFrom g rel S j x → (List.lookup x succs).isSome := by
  intro j
  induction j using Nat.strong_induction_on with
  | _ j ih =>
    intro x hj1 hjp
    rcases Nat.lt_or_ge r j with hgt | hle
    · cases r with
      | zero =>
        obtain ⟨s, hs, _⟩ := hjp
        have : s ∈ queue := (inv.queueIff s).mpr hs
        rw [hq] at this
        exact absurd this (List.not_mem_nil s)
      | succ r' =>
        obtain ⟨s, hs, hreach⟩ := hjp
        obtain ⟨y, h1, h2⟩ := hreach.split (r' + 1) (Nat.le_of_lt hgt)
        by_cases hyS : y ∈ S
        · exact ih (j - (r' + 1)) (by omega) x (by omega) ⟨y, hyS, h2⟩
        · by_cases hshort : ∃ j', 1 ≤ j' ∧ j' < r' + 1 ∧ PathFrom g rel S j' y
          · obtain ⟨j', hj'1, hj'2, s', hs', hr'⟩ := hshort
            exact ih (j' + (j - (r' + 1))) (by omega) x (by omega)
              ⟨s', hs', hr'.trans h2⟩
          · have : y ∈ queue := (inv.queueIff y).mpr
              ⟨hyS, ⟨s, hs, h1⟩, fun j' ha hb hp => hshort ⟨j', ha, hb, hp⟩⟩
            rw [hq] at this
            exact absurd this (List.not_mem_nil y)
    · exact inv.complete x j hj1 hle hjp

/-- The number of edge targets not yet recorded; the loop's fuel budget. -/
def freshCount (g : Graph) (succs : List (Node × Nat)) : Nat :=
  ((g.edges.map (fun e => e.2.1)).toFinset.filter
    (fun t => List.lookup t succs = none)).card

theorem freshCount_lt {g : Graph} {rel : RelName} {S queue : List Node} {r : Nat}
    {succs : List (Node × Nat)}
    (hne : (tcScan rel S r (outEdges g queue) succs []).2 ≠ []) :
    freshCount g (tcScan rel S r (outEdges g queue) succs []).1 < freshCount g succs := by
  obtain ⟨t, ht⟩ := List.exists_mem_of_ne_nil _ hne
  rw [tcScan_queue_mem] at ht
  simp only [List.not_mem_nil, false_or] at ht
  obtain ⟨hseed, hfresh, hmem⟩ := ht
  have htgt : t ∈ (g.edges.map (fun e => e.2.1)).toFinset := by
    rw [List.mem_toFinset, List.mem_map]
    unfold matchTargets at hmem
    rw [List.mem_map] at hmem
    obtain ⟨e, he, hx⟩ := hmem
    rw [List.mem_filter] at he
    exact ⟨e, (mem_outEdges.mp he.1).2, hx⟩
  have hrec : (List.lookup t (tcScan rel S r (outEdges g queue) succs []).1).isSome :=
    tcScan_complete hmem
  apply Finset.card_lt_card
  rw [Finset.ssubset_iff_of_subset]
  · refine ⟨t, Finset.mem_filter.mpr ⟨htgt, hfresh⟩, ?_⟩
    rw [Finset.mem_filter]
    rintro ⟨-, hnone⟩
    rw [hnone] at hrec
    simp at hrec
  · intro u hu
    rw [Finset.mem_filter] at hu ⊢
    refine ⟨hu.1, ?_⟩
    cases hq : List.lookup u succs with
    | none => rfl
    | some d => exact absurd (tcScan_lookup_preserve hq) (by rw [hu.2]; simp)

/-- Full correctness of the `_transitive_closure` loop, by induction on the
fuel: provided the invariant holds and the fuel budget covers the unrecorded
edge targets, the final map holds exactly the units with a positive matching
walk from the seed set, each at its least positive distance. -/
theorem tcLoop_correct (g : Graph) (rel : RelName) (S : List Node) :
    ∀ (fuel : Nat) (queue : List Node) (r : Nat) (succs : List (Node × Nat)),
      TCInv g rel S queue r succs →
      (queue = [] ∨ freshCount g succs + 2 ≤ fuel) →
      (∀ x d, List.lookup x (tcLoop g rel S fuel queue r succs) = some d →
          1 ≤ d ∧ PathFrom g rel S d x ∧ ∀ j, 1 ≤ j → PathFrom g rel S j x → d ≤ j) ∧
      (∀ x j, 1 ≤ j → PathFrom g rel S j x →
          (List.lookup x (tcLoop g rel S fuel queue r succs)).isSome) := by
  intro fuel
  induction fuel with
  | zero =>
    intro queue r succs inv hfb
    have hq : queue = [] := by
      rcases hfb with h | h
      · exact h
      · omega
    constructor
    · intro x d hl
      obtain ⟨h1, _, h3, h4⟩ := inv.values x d hl
      exact ⟨h1, h3, h4⟩
    · intro x j h1 h2
      exact tc_terminal_complete inv hq j x h1 h2
  | succ fuel ih =>
    intro queue r succs inv hfb
    by_cases hq : queue = []
    · have hqe : queue.isEmpty = true := by simp [hq]
      unfold tcLoop
      rw [if_pos hqe]
      constructor
      · intro x d hl
        obtain ⟨h1, _, h3, h4⟩ := inv.values x d hl
        exact ⟨h1, h3, h4⟩
      · intro x j h1 h2
        exact tc_terminal_complete inv hq j x h1 h2
    · have hqe : ¬ queue.isEmpty = true := by simpa using hq
      unfold tcLoop
      rw [if_neg hqe]
      apply ih _ (r + 1) _ (tcRound inv)
      by_cases hnq : (tcScan rel S r (outEdges g queue) succs []).2 = []
      · exact Or.inl hnq
      · right
        have hlt := @freshCount_lt g rel S queue r succs hnq
        rcases hfb with h | h
        · exact absurd h hq
        · omega

/-- C2: for every graph, seed unit list and relation-name filter,
`_transitive_closure` returns a map whose domain is exactly the units
reachable from the seed set by at least one matching edge step (seed units
reached via an edge included); it maps each such unit to the least number of
matching edge hops over walks of at least one edge from the seed set; every
reported distance is positive; and a unit is never reported at a distance
below any lower bound valid for all its walks (in particular never below its
BFS distance). -/
theorem C2_transitive_closure (g : Graph) (rel : RelName) (lus : List Node) :
    (∀ x, (List.lookup x (transitiveClosure g rel lus)).isSome ↔
        ∃ n, 1 ≤ n ∧ PathFrom g rel lus n x) ∧
    (∀ x d, List.lookup x (transitiveClosure g rel lus) = some d →
        1 ≤ d ∧ PathFrom g rel lus d x ∧
          ∀ j, 1 ≤ j → PathFrom g rel lus j x → d ≤ j) ∧
    (∀ x d k, List.lookup x (transitiveClosure g rel lus) = some d →
        (∀ j, PathFrom g rel lus j x → k ≤ j) → k ≤ d) := by
  have hinv : TCInv g rel lus lus 0 [] := by
    refine ⟨?_, ?_, ?_⟩
    · intro x d hl
      simp [List.lookup] at hl
    · intro x j h1 h2 _
      omega
    · intro x
      exact Iff.rfl
  have hfb : lus = [] ∨ freshCount g [] + 2 ≤ g.edges.length + 2 := by
    right
    unfold freshCount
    have h1 : ((g.edges.map (fun e => e.2.1)).toFinset.filter
        (fun t => List.lookup t ([] : List (Node × Nat)) = none)).card ≤
        (g.edges.map (fun e => e.2.1)).toFinset.card := Finset.card_filter_le _ _
    have h2 : (g.edges.map (fun e => e.2.1)).toFinset.card ≤
        (g.edges.map (fun e => e.2.1)).length := List.toFinset_card_le _
    rw [List.length_map] at h2
    omega
  obtain ⟨hv, hc⟩ := tcLoop_correct g rel lus (g.edges.length + 2) lus 0 [] hinv hfb
  refine ⟨?_, hv, ?_⟩
  · intro x
    constructor
    · intro hs
      obtain ⟨d, hd⟩ := Option.isSome_iff_exists.mp hs
      obtain ⟨h1, h2, _⟩ := hv x d hd
      exact ⟨d, h1, h2⟩
    · rintro ⟨n, h1, h2⟩
      exact hc x n h1 h2
  · intro x d k hd hlow
    obtain ⟨_, h2, _⟩ := hv x d hd
    exact hlow d h2

/-- Witness for C2: on the two-edge chain `0 → 1 → 2`, unit 2 is recorded
(reachable in two hops), and the recorded distance for it is minimal. -/
theorem C2_transitive_closure_witness :
    (List.lookup 2 (transitiveClosure ⟨[(0, 1, "R"), (1, 2, "R")]⟩ "" [0])).isSome := by
  apply ((C2_transitive_closure ⟨[(0, 1, "R"), (1, 2, "R")]⟩ "" [0]).1 2).mpr
  have m1 : ((0, 1, "R") : GEdge) ∈ ([(0, 1, "R"), (1, 2, "R")] : List GEdge) := by simp
  have m2 : ((1, 2, "R") : GEdge) ∈ ([(0, 1, "R"), (1, 2, "R")] : List GEdge) := by simp
  have hr : relHasName "R" "" = true := by decide
  exact ⟨2, by omega, 0, List.mem_singleton.mpr rfl,
    ((ReachN.refl 0).step m1 hr).step m2 hr⟩

/-! ## `Cornet._bidirectional_shortest_path` (cornet.py)

Alternating forward/backward BFS frontiers that meet in the middle, bounded
by `depth` total hops.  The `pred`/`succ` dicts map units to `(unit, edge)`
pairs, `(None, None)` for the initial endpoint units. -/

/-- Predecessor/successor map: unit to recorded `(unit, relation)` pair. -/
abbrev PredMap := List (Node × (Option Node × Option RelName))

/-- The three shapes of `_bidirectional_shortest_path`'s result tuple:
`(None, None, None)` (no path), `(None, lu, None)` (sources and targets
intersect), and `(pred, lu, succ)` (frontiers met at `lu`). -/
inductive BidirResult
  | noPath
  | trivialPath (w : Node)
  | found (pred : PredMap) (w : Node) (succ : PredMap)

/-- The forward-frontier expansion loop (`for from_lu, to_lu, edge in
out_edges`): a matching edge records the unvisited target in `pred` and
appends it to the new fringe; reaching any unit of `succ` returns the
updated map and the meeting unit (`Sum.inr`). -/
def fwdScan (rel : RelName) (succ : PredMap) :
    List GEdge → PredMap → List Node → (PredMap × List Node) ⊕ (PredMap × Node)
  | [], pred, fringe => Sum.inl (pred, fringe)
  | e :: es, pred, fringe =>
    if relHasName e.2.2 rel then
      let pf : PredMap × List Node :=
        if (List.lookup e.2.1 pred).isNone then
          (pred ++ [(e.2.1, (some e.1, some e.2.2))], fringe ++ [e.2.1])
        else (pred, fringe)
      if (List.lookup e.2.1 succ).isSome then Sum.inr (pf.1, e.2.1)
      else fwdScan rel succ es pf.1 pf.2
    else fwdScan rel succ es pred fringe

/-- The backward-frontier expansion loop (`for from_lu, to_lu, edge in
in_edges`): a matching edge records the unvisited source in `succ` and
appends it to the new reverse fringe; reaching any unit of `pred` returns
the updated map and the meeting unit. -/
def bwdScan (rel : RelName) (pred : PredMap) :
    List GEdge → PredMap → List Node → (PredMap × List Node) ⊕ (PredMap × Node)
  | [], succ, fringe => Sum.inl (succ, fringe)
  | e :: es, succ, fringe =>
    if relHasName e.2.2 rel then
      let sf : PredMap × List Node :=
        if (List.lookup e.1 succ).isNone then
          (succ ++ [(e.1, (some e.2.1, some e.2.2))], fringe ++ [e.1])
        else (succ, fringe)
      if (List.lookup e.1 pred).isSome then Sum.inr (sf.1, e.1)
      else bwdScan rel pred es sf.1 sf.2
    else bwdScan rel pred es succ fringe

/-- The `while forward_fringe and reverse_fringe and level != depth` loop.
The fuel only bounds the rounds; `bidirectionalShortestPath` passes
`depth + 1`, which is proved below to always suffice (the level grows by two
per round and the loop stops at `depth`). -/
def bidirLoop (g : Graph) (rel : RelName) (depth : Nat) :
    Nat → PredMap → PredMap → List Node → List Node → Nat → BidirResult
  | 0, _, _, _, _, _ => BidirResult.noPath
  | fuel + 1, pred, succ, ff, rf, level =>
    if ff.isEmpty || rf.isEmpty || level == depth then BidirResult.noPath
    else
      match fwdScan rel succ (outEdges g ff) pred [] with
      | Sum.inr pw => BidirResult.found pw.1 pw.2 succ
      | Sum.inl pf =>
        if level + 1 == depth then BidirResult.noPath
        else
          match bwdScan rel pf.1 (inEdges g rf) succ [] with
          | Sum.inr sw => BidirResult.found pf.1 sw.2 sw.1
          | Sum.inl sf => bidirLoop g rel depth fuel pf.1 sf.1 pf.2 sf.2 (level + 2)

/-- `dict.fromkeys(lus, (None, None))`: every listed unit mapped to the
`(None, None)` sentinel. -/
def initMap (L : List Node) : PredMap :=
  L.map (fun x => (x, (none, none)))

/-- `Cornet._bidirectional_shortest_path`: initialise `pred`/`succ` with the
endpoint unit sets, return the trivial result if they intersect (`for lu in
from_lus: if lu in succ`), otherwise run the alternating expansion. -/
def bidirectionalShortestPath (g : Graph) (rel : RelName) (depth : Nat)
    (fromLus toLus : List Node) : BidirResult :=
  match fromLus.find? (fun x => (List.lookup x (initMap toLus)).isSome) with
  | some w => BidirResult.trivialPath w
  | none =>
    bidirLoop g rel depth (depth + 1) (initMap fromLus) (initMap toLus) fromLus toLus 0

/-! ### Path reconstruction (`Cornet._reconstruct_path`), raw output format -/

/-- A path token: a lexical unit, or a relation token (the relation recorded
for the traversed edge; `none` mirrors `rel_formatter(None)` under the raw
format, which only an unreachable map shape could produce). -/
abbrev PathTok := Node ⊕ Option RelName

/-- The `while lu is not None` loop walking `succ` from the common unit
towards the target: emit the unit, then the relation token if an edge was
recorded, then continue at the recorded next unit.  The fuel bounds the walk
(the maps the search builds record each unit once, so `succ.length + 1`
suffices); a missing key would be a `KeyError` in the source. -/
def succChainToks (succ : PredMap) : Nat → Node → List PathTok
  | 0, lu => [Sum.inl lu]
  | fuel + 1, lu =>
    Sum.inl lu ::
      match List.lookup lu succ with
      | none => []
      | some (next?, e?) =>
        (match e? with
         | some e => [Sum.inr (some e)]
         | none => []) ++
        (match next? with
         | some nxt => succChainToks succ fuel nxt
         | none => [])

/-- The `while lu is not None` loop walking `pred` from a unit towards the
source, building the front of the path (in final order): the unit's own
predecessor chain, the relation token if an edge was recorded, then the
unit. -/
def predChainToks (pred : PredMap) : Nat → Node → List PathTok
  | 0, u => [Sum.inl u]
  | fuel + 1, u =>
    (match List.lookup u pred with
     | none => []
     | some (lu?, e?) =>
       (match lu? with
        | some prev => predChainToks pred fuel prev
        | none => []) ++
       (match e? with
        | some e => [Sum.inr (some e)]
        | none => [])) ++ [Sum.inl u]

/-- `Cornet._reconstruct_path`: the empty path for `(None, None, None)`, the
single-unit path for the trivial result, and otherwise the predecessor chain
of the common unit, the unconditionally inserted relation token of
`pred[common_lu]`, and the successor chain from the common unit. -/
def reconstructPath : BidirResult → List PathTok
  | BidirResult.noPath => []
  | BidirResult.trivialPath w => [Sum.inl w]
  | BidirResult.found pred w succ =>
    (match List.lookup w pred with
     | none => []
     | some (lu?, e?) =>
       (match lu? with
        | some prev => predChainToks pred pred.length prev
        | none => []) ++ [Sum.inr e?]) ++
    succChainToks succ (succ.length + 1) w

/-- `Cornet.test_lex_units_relation`, from the point where the two unit
specs have been resolved into unit sets (the claim quantifies over the
resolved source and target sets), under the raw output format (the other
formats postcompose token-wise formatting, which does not change whether the
path is empty; the format check itself is modelled separately). -/
def testLexUnitsRelation (g : Graph) (rel : RelName) (depth : Nat)
    (fromLus toLus : List Node) : List PathTok :=
  reconstructPath (bidirectionalShortestPath g rel depth fromLus toLus)

/-! ### Reversal bridge: the backward scan is the forward scan on the
reversed graph, which lets every forward-side lemma serve both frontiers. -/

/-- Swap an edge's endpoints. -/
def swapE (e : GEdge) : GEdge := (e.2.1, e.1, e.2.2)

/-- The graph with every edge reversed. -/
def revGraph (g : Graph) : Graph := ⟨g.edges.map swapE⟩

theorem bwdScan_eq_fwdScan (rel : RelName) (pred : PredMap) :
    ∀ (es : List GEdge) (succ : PredMap) (fringe : List Node),
      bwdScan rel pred es succ fringe = fwdScan rel pred (es.map swapE) succ fringe := by
  intro es
  induction es with
  | nil => intro succ fringe; rfl
  | cons e es ih =>
    intro succ fringe
    simp only [List.map_cons]
    unfold bwdScan fwdScan
    simp only [swapE]
    by_cases hm : relHasName e.2.2 rel = true
    · rw [if_pos hm, if_pos hm]
      by_cases hf : (List.lookup e.1 succ).isNone
      · simp only [hf, if_pos, if_true]
        by_cases hp : (List.lookup e.1 pred).isSome
        · simp [hp]
        · simp only [hp, if_neg, Bool.false_eq_true, if_false]
          exact ih _ _
      · simp only [hf, Bool.false_eq_true, if_false]
        by_cases hp : (List.lookup e.1 pred).isSome
        · simp [hp]
        · simp only [hp, Bool.false_eq_true, if_false]
          exact ih _ _
    · rw [if_neg hm, if_neg hm]
      exact ih _ _

theorem inEdges_map_swap (g : Graph) (rf : List Node) :
    (inEdges g rf).map swapE = outEdges (revGraph g) rf := by
  unfold inEdges outEdges revGraph
  induction rf with
  | nil => simp
  | cons u us ih =>
    simp only [List.flatMap_cons, List.map_append, ih]
    congr 1
    induction g.edges with
    | nil => simp
    | cons e es ihe =>
      simp only [List.map_cons, List.filter_cons]
      by_cases h : (e.2.1 == u) = true
      · have h' : ((swapE e).1 == u) = true := h
        simp only [h, h', if_true, List.map_cons, ihe]
      · have h' : ((swapE e).1 == u) = false := by simpa using h
        simp only [h, h', Bool.false_eq_true, if_false, ihe]

theorem revGraph_involutive (g : Graph) : revGraph (revGraph g) = g := by
  unfold revGraph
  cases g with
  | mk es =>
    simp only [Graph.mk.injEq, List.map_map]
    have : swapE ∘ swapE = id := by
      funext e
      simp [swapE]
    rw [this, List.map_id]

theorem reachN_rev {g : Graph} {rel : RelName} {n : Nat} {x y : Node}
    (h : ReachN g rel n x y) : ReachN (revGraph g) rel n y x := by
  induction h with
  | refl x => exact ReachN.refl x
  | step h e hr ih =>
    have e' : (swapE _) ∈ (revGraph g).edges := List.mem_map_of_mem swapE e
    have hstep := (ReachN.refl _).step e' hr
    have := hstep.trans ih
    rwa [Nat.add_comm] at this

theorem reachN_rev_iff {g : Graph} {rel : RelName} {n : Nat} {x y : Node} :
    ReachN (revGraph g) rel n y x ↔ ReachN g rel n x y := by
  constructor
  · intro h
    have := reachN_rev h
    rwa [revGraph_involutive] at this
  · exact reachN_rev

/-! ### Forward-scan lemmas -/

/-- The map resulting from a scan, whether it finished or met the other
frontier. -/
def scanMap : (PredMap × List Node) ⊕ (PredMap × Node) → PredMap
  | Sum.inl pf => pf.1
  | Sum.inr pw => pw.1

theorem fwdScan_lookup_preserve {rel : RelName} {succ : PredMap} :
    ∀ {es : List GEdge} {pred : PredMap} {fringe : List Node}
      {x : Node} {v : Option Node × Option RelName},
      List.lookup x pred = some v →
      List.lookup x (scanMap (fwdScan rel succ es pred fringe)) = some v := by
  intro es
  induction es with
  | nil => intro pred fringe x v h; simpa [fwdScan, scanMap] using h
  | cons e es ih =>
    intro pred fringe x v h
    unfold fwdScan
    by_cases hm : relHasName e.2.2 rel = true
    · rw [if_pos hm]
      by_cases hf : (List.lookup e.2.1 pred).isNone
      · simp only [hf, if_true]
        by_cases hs : (List.lookup e.2.1 succ).isSome
        · simp only [hs, if_true, scanMap]
          exact lookup_append_left _ h
        · simp only [hs, Bool.false_eq_true, if_false]
          exact ih (lookup_append_left _ h)
      · simp only [hf, Bool.false_eq_true, if_false]
        by_cases hs : (List.lookup e.2.1 succ).isSome
        · simp only [hs, if_true, scanMap]
          exact h
        · simp only [hs, Bool.false_eq_true, if_false]
          exact ih h
    · rw [if_neg hm]
      exact ih h

theorem fwdScan_inl_dom {rel : RelName} {succ : PredMap} :
    ∀ {es : List GEdge} {pred : PredMap} {fringe : List Node}
      {pf : PredMap × List Node},
      fwdScan rel succ es pred fringe = Sum.inl pf →
      ∀ x, (List.lookup x pf.1).isSome ↔
        ((List.lookup x pred).isSome ∨ x ∈ matchTargets rel es) := by
  intro es
  induction es with
  | nil =>
    intro pred fringe pf h x
    simp only [fwdScan, Sum.inl.injEq] at h
    subst h
    simp [matchTargets]
  | cons e es ih =>
    intro pred fringe pf h x
    have htg : x ∈ matchTargets rel (e :: es) ↔
        ((relHasName e.2.2 rel = true ∧ x = e.2.1) ∨ x ∈ matchTargets rel es) := by
      unfold matchTargets
      rw [List.filter_cons]
      by_cases hm : relHasName e.2.2 rel = true
      · simp [hm]
      · simp [hm]
    unfold fwdScan at h
    by_cases hm : relHasName e.2.2 rel = true
    · rw [if_pos hm] at h
      by_cases hf : (List.lookup e.2.1 pred).isNone
      · simp only [hf, if_true] at h
        by_cases hs : (List.lookup e.2.1 succ).isSome
        · simp only [hs, if_true] at h
          exact Sum.noConfusion h
        · simp only [hs, Bool.false_eq_true, if_false] at h
          rw [ih h x, htg]
          constructor
          · rintro (hin | hmem)
            · by_cases hx : x = e.2.1
              · exact Or.inr (Or.inl ⟨hm, hx⟩)
              · rw [lookup_append_singleton_ne hx] at hin
                exact Or.inl hin
            · exact Or.inr (Or.inr hmem)
          · rintro (hin | (⟨-, hx⟩ | hmem))
            · left
              obtain ⟨v, hv⟩ := Option.isSome_iff_exists.mp hin
              rw [lookup_append_left _ hv]
              simp
            · subst hx
              left
              rw [Option.isNone_iff_eq_none] at hf
              rw [lookup_append_right _ hf, lookup_cons, if_pos rfl]
              simp
            · exact Or.inr hmem
      · simp only [hf, Bool.false_eq_true, if_false] at h
        by_cases hs : (List.lookup e.2.1 succ).isSome
        · simp only [hs, if_true] at h
          exact Sum.noConfusion h
        · simp only [hs, Bool.false_eq_true, if_false] at h
          rw [ih h x, htg]
          constructor
          · rintro (hin | hmem)
            · exact Or.inl hin
            · exact Or.inr (Or.inr hmem)
          · rintro (hin | (⟨-, hx⟩ | hmem))
            · exact Or.inl hin
            · subst hx
              exact Or.inl (by simpa using hf)
            · exact Or.inr hmem
    · rw [if_neg hm] at h
      rw [ih h x, htg]
      constructor
      · rintro (hin | hmem)
        · exact Or.inl hin
        · exact Or.inr (Or.inr hmem)
      · rintro (hin | (⟨hm', -⟩ | hmem))
        · exact Or.inl hin
        · exact absurd hm' hm
        · exact Or.inr hmem

theorem fwdScan_inl_nosucc {rel : RelName} {succ : PredMap} :
    ∀ {es : List GEdge} {pred : PredMap} {fringe : List Node}
      {pf : PredMap × List Node},
      fwdScan rel succ es pred fringe = Sum.inl pf →
      ∀ e ∈ es, relHasName e.2.2 rel = true → List.lookup e.2.1 succ = none := by
  intro es
  induction es with
  | nil => intro pred fringe pf h e he; exact absurd he (List.not_mem_nil e)
  | cons e es ih =>
    intro pred fringe pf h e' he' hm'
    unfold fwdScan at h
    by_cases hm : relHasName e.2.2 rel = true
    · rw [if_pos hm] at h
      by_cases hf : (List.lookup e.2.1 pred).isNone
      · simp only [hf, if_true] at h
        by_cases hs : (List.lookup e.2.1 succ).isSome
        · simp only [hs, if_true] at h
          exact Sum.noConfusion h
        · simp only [hs, Bool.false_eq_true, if_false] at h
          rcases List.mem_cons.mp he' with he'' | he''
          · subst he''
            exact Option.not_isSome_iff_eq_none.mp hs
          · exact ih h e' he'' hm'
      · simp only [hf, Bool.false_eq_true, if_false] at h
        by_cases hs : (List.lookup e.2.1 succ).isSome
        · simp only [hs, if_true] at h
          exact Sum.noConfusion h
        · simp only [hs, Bool.false_eq_true, if_false] at h
          rcases List.mem_cons.mp he' with he'' | he''
          · subst he''
            exact Option.not_isSome_iff_eq_none.mp hs
          · exact ih h e' he'' hm'
    · rw [if_neg hm] at h
      rcases List.mem_cons.mp he' with he'' | he''
      · subst he''
        exact absurd hm' hm
      · exact ih h e' he'' hm'

theorem fwdScan_inl_fringe {rel : RelName} {succ : PredMap} :
    ∀ {es : List GEdge} {pred : PredMap} {fringe : List Node}
      {pf : PredMap × List Node},
      fwdScan rel succ es pred fringe = Sum.inl pf →
      ∀ x, x ∈ pf.2 ↔ (x ∈ fringe ∨
        (List.lookup x pred = none ∧ x ∈ matchTargets rel es)) := by
  intro es
  induction es with
  | nil =>
    intro pred fringe pf h x
    simp only [fwdScan, Sum.inl.injEq] at h
    subst h
    simp [matchTargets]
  | cons e es ih =>
    intro pred fringe pf h x
    have htg : x ∈ matchTargets rel (e :: es) ↔
        ((relHasName e.2.2 rel = true ∧ x = e.2.1) ∨ x ∈ matchTargets rel es) := by
      unfold matchTargets
      rw [List.filter_cons]
      by_cases hm : relHasName e.2.2 rel = true
      · simp [hm]
      · simp [hm]
    unfold fwdScan at h
    by_cases hm : relHasName e.2.2 rel = true
    · rw [if_pos hm] at h
      by_cases hf : (List.lookup e.2.1 pred).isNone
      · simp only [hf, if_true] at h
        by_cases hs : (List.lookup e.2.1 succ).isSome
        · simp only [hs, if_true] at h
          exact Sum.noConfusion h
        · simp only [hs, Bool.false_eq_true, if_false] at h
          rw [Option.isNone_iff_eq_none] at hf
          rw [ih h x, htg]
          constructor
          · rintro (hin | ⟨hnone, hmem⟩)
            · rcases List.mem_append.mp hin with hin' | hin'
              · exact Or.inl hin'
              · simp only [List.mem_singleton] at hin'
                subst hin'
                exact Or.inr ⟨hf, Or.inl ⟨hm, rfl⟩⟩
            · by_cases hx : x = e.2.1
              · subst hx
                rw [lookup_append_right _ hf, lookup_cons, if_pos rfl] at hnone
                exact Option.noConfusion hnone
              · rw [lookup_append_singleton_ne hx] at hnone
                exact Or.inr ⟨hnone, Or.inr hmem⟩
          · rintro (hin | ⟨hnone, (⟨-, hx⟩ | hmem)⟩)
            · exact Or.inl (List.mem_append.mpr (Or.inl hin))
            · subst hx
              exact Or.inl (List.mem_append.mpr (Or.inr (List.mem_singleton.mpr rfl)))
            · by_cases hx : x = e.2.1
              · subst hx
                exact Or.inl (List.mem_append.mpr (Or.inr (List.mem_singleton.mpr rfl)))
              · right
                rw [lookup_append_singleton_ne hx]
                exact ⟨hnone, hmem⟩
      · simp only [hf, Bool.false_eq_true, if_false] at h
        by_cases hs : (List.lookup e.2.1 succ).isSome
        · simp only [hs, if_true] at h
          exact Sum.noConfusion h
        · simp only [hs, Bool.false_eq_true, if_false] at h
          rw [ih h x, htg]
          constructor
          · rintro (hin | ⟨hnone, hmem⟩)
            · exact Or.inl hin
            · exact Or.inr ⟨hnone, Or.inr hmem⟩
          · rintro (hin | ⟨hnone, (⟨-, hx⟩ | hmem)⟩)
            · exact Or.inl hin
            · subst hx
              rw [hnone] at hf
              simp at hf
            · exact Or.inr ⟨hnone, hmem⟩
    · rw [if_neg hm] at h
      rw [ih h x, htg]
      constructor
      · rintro (hin | ⟨hnone, hmem⟩)
        · exact Or.inl hin
        · exact Or.inr ⟨hnone, Or.inr hmem⟩
      · rintro (hin | ⟨hnone, (⟨hm', -⟩ | hmem)⟩)
        · exact Or.inl hin
        · exact absurd hm' hm
        · exact Or.inr ⟨hnone, hmem⟩

theorem fwdScan_inr_found {rel : RelName} {succ : PredMap} :
    ∀ {es : List GEdge} {pred : PredMap} {fringe : List Node}
      {pw : PredMap × Node},
      fwdScan rel succ es pred fringe = Sum.inr pw →
      (List.lookup pw.2 succ).isSome ∧ pw.2 ∈ matchTargets rel es := by
  intro es
  induction es with
  | nil => intro pred fringe pw h; exact Sum.noConfusion h
  | cons e es ih =>
    intro pred fringe pw h
    have htail : ∀ {y : Node}, y ∈ matchTargets rel es → y ∈ matchTargets rel (e :: es) := by
      intro y hy
      unfold matchTargets at hy ⊢
      rw [List.mem_map] at hy
      obtain ⟨e', he', hx⟩ := hy
      rw [List.mem_map]
      exact ⟨e', List.mem_filter.mpr
        ⟨List.mem_cons_of_mem _ (List.mem_filter.mp he').1, (List.mem_filter.mp he').2⟩, hx⟩
    have hhd : e.2.1 ∈ matchTargets rel (e :: es) → True := fun _ => trivial
    unfold fwdScan at h
    by_cases hm : relHasName e.2.2 rel = true
    · rw [if_pos hm] at h
      by_cases hf : (List.lookup e.2.1 pred).isNone
      · simp only [hf, if_true] at h
        by_cases hs : (List.lookup e.2.1 succ).isSome
        · simp only [hs, if_true] at h
          cases h
          refine ⟨hs, ?_⟩
          unfold matchTargets
          rw [List.mem_map]
          exact ⟨e, List.mem_filter.mpr ⟨List.mem_cons_self _ _, hm⟩, rfl⟩
        · simp only [hs, Bool.false_eq_true, if_false] at h
          obtain ⟨h1, h2⟩ := ih h
          exact ⟨h1, htail h2⟩
      · simp only [hf, Bool.false_eq_true, if_false] at h
        by_cases hs : (List.lookup e.2.1 succ).isSome
        · simp only [hs, if_true] at h
          cases h
          refine ⟨hs, ?_⟩
          unfold matchTargets
          rw [List.mem_map]
          exact ⟨e, List.mem_filter.mpr ⟨List.mem_cons_self _ _, hm⟩, rfl⟩
        · simp only [hs, Bool.false_eq_true, if_false] at h
          obtain ⟨h1, h2⟩ := ih h
          exact ⟨h1, htail h2⟩
    · rw [if_neg hm] at h
      obtain ⟨h1, h2⟩ := ih h
      exact ⟨h1, htail h2⟩

/-! ### Invariants of the bidirectional search -/

/-- Some matching walk from `S` of length at most `k` reaches `x`. -/
def DistLeF (g : Graph) (rel : RelName) (S : List Node) (k : Nat) (x : Node) : Prop :=
  ∃ j, j ≤ k ∧ PathFrom g rel S j x

/-- One frontier's invariant after `k` expansions: the map's domain is
exactly the units within distance `k` of the endpoint set, and the fringe is
exactly the units at distance exactly `k`.  (The backward frontier satisfies
this over the reversed graph.) -/
structure HalfInv (g : Graph) (rel : RelName) (S : List Node) (pmap : PredMap)
    (fringe : List Node) (k : Nat) : Prop where
  dom : ∀ x, (List.lookup x pmap).isSome ↔ DistLeF g rel S k x
  fringeIff : ∀ x, x ∈ fringe ↔
    (DistLeF g rel S k x ∧ ∀ j, j < k → ¬ PathFrom g rel S j x)

theorem ReachN.succ_inv {g : Graph} {rel : RelName} {n : Nat} {x z : Node}
    (h : ReachN g rel (n + 1) x z) :
    ∃ y r, ReachN g rel n x y ∧ (y, z, r) ∈ g.edges ∧ relHasName r rel = true := by
  cases h with
  | step hry hedge hm => exact ⟨_, _, hry, hedge, hm⟩

theorem distLeF_mono {g : Graph} {rel : RelName} {S : List Node} {k k' : Nat} {x : Node}
    (hk : k ≤ k') (h : DistLeF g rel S k x) : DistLeF g rel S k' x := by
  obtain ⟨j, hj, hp⟩ := h
  exact ⟨j, le_trans hj hk, hp⟩

theorem pathFrom_step {g : Graph} {rel : RelName} {S : List Node} {j : Nat}
    {y x : Node} {er : RelName} (h : PathFrom g rel S j y)
    (he : (y, x, er) ∈ g.edges) (hm : relHasName er rel = true) :
    PathFrom g rel S (j + 1) x := by
  obtain ⟨s, hs, hr⟩ := h
  exact ⟨s, hs, hr.step he hm⟩

theorem distLeF_zero {g : Graph} {rel : RelName} {S : List Node} {x : Node} :
    DistLeF g rel S 0 x ↔ x ∈ S := by
  constructor
  · rintro ⟨j, hj, s, hs, hr⟩
    interval_cases j
    rwa [← hr.eq_of_zero]
  · intro h
    exact ⟨0, le_rfl, x, h, ReachN.refl x⟩

theorem matchTargets_outEdges_elim {g : Graph} {rel : RelName} {fringe : List Node}
    {x : Node} (hx : x ∈ matchTargets rel (outEdges g fringe)) :
    ∃ y er, y ∈ fringe ∧ (y, x, er) ∈ g.edges ∧ relHasName er rel = true := by
  unfold matchTargets at hx
  rw [List.mem_map] at hx
  obtain ⟨e, he, hx⟩ := hx
  rw [List.mem_filter] at he
  obtain ⟨he, hm⟩ := he
  rw [mem_outEdges] at he
  obtain ⟨e1, e2, e3⟩ := e
  cases hx
  exact ⟨e1, e3, he.1, he.2, hm⟩

theorem matchTargets_outEdges_intro {g : Graph} {rel : RelName} {fringe : List Node}
    {y x : Node} {er : RelName} (hy : y ∈ fringe) (he : (y, x, er) ∈ g.edges)
    (hm : relHasName er rel = true) :
    x ∈ matchTargets rel (outEdges g fringe) := by
  unfold matchTargets
  rw [List.mem_map]
  exact ⟨(y, x, er), List.mem_filter.mpr ⟨mem_outEdges.mpr ⟨hy, he⟩, hm⟩, rfl⟩

/-- One frontier expansion that completed without meeting the other side
re-establishes the frontier invariant one level deeper and touches only
units the other side has not recorded. -/
theorem fwdRound {g : Graph} {rel : RelName} {S : List Node} {pmap other : PredMap}
    {fringe : List Node} {k : Nat} (hinv : HalfInv g rel S pmap fringe k)
    {pf : PredMap × List Node}
    (hscan : fwdScan rel other (outEdges g fringe) pmap [] = Sum.inl pf) :
    HalfInv g rel S pf.1 pf.2 (k + 1) ∧
      (∀ x, (List.lookup x pf.1).isSome →
        ((List.lookup x pmap).isSome ∨ List.lookup x other = none)) := by
  have hmtDist : ∀ {x : Node}, x ∈ matchTargets rel (outEdges g fringe) →
      DistLeF g rel S (k + 1) x := by
    intro x hx
    obtain ⟨y, er, hy, he, hm⟩ := matchTargets_outEdges_elim hx
    obtain ⟨⟨j, hj, hp⟩, -⟩ := (hinv.fringeIff y).mp hy
    exact ⟨j + 1, by omega, pathFrom_step hp he hm⟩
  have hmtIn : ∀ {x : Node}, PathFrom g rel S (k + 1) x →
      (∀ j, j ≤ k → ¬ PathFrom g rel S j x) →
      x ∈ matchTargets rel (outEdges g fringe) := by
    intro x hp hmin
    obtain ⟨s, hs, hr⟩ := hp
    obtain ⟨y, r, hry, hedge, hm⟩ := hr.succ_inv
    have hy : y ∈ fringe := by
      rw [hinv.fringeIff]
      refine ⟨⟨k, le_rfl, ⟨s, hs, hry⟩⟩, ?_⟩
      intro j hj hpj
      exact hmin (j + 1) (by omega) (pathFrom_step hpj hedge hm)
    exact matchTargets_outEdges_intro hy hedge hm
  refine ⟨⟨?_, ?_⟩, ?_⟩
  · intro x
    rw [fwdScan_inl_dom hscan x]
    constructor
    · rintro (hin | hmt)
      · exact distLeF_mono (Nat.le_succ k) ((hinv.dom x).mp hin)
      · exact hmtDist hmt
    · rintro ⟨j, hj, hp⟩
      by_cases hle : DistLeF g rel S k x
      · exact Or.inl ((hinv.dom x).mpr hle)
      · right
        have hj' : j = k + 1 := by
          by_contra hne
          exact hle ⟨j, by omega, hp⟩
        subst hj'
        exact hmtIn hp (fun j' hj' hp' => hle ⟨j', hj', hp'⟩)
  · intro x
    rw [fwdScan_inl_fringe hscan x]
    simp only [List.not_mem_nil, false_or]
    constructor
    · rintro ⟨hnone, hmt⟩
      refine ⟨hmtDist hmt, ?_⟩
      intro j hj hp
      have : (List.lookup x pmap).isSome := (hinv.dom x).mpr ⟨j, by omega, hp⟩
      rw [hnone] at this
      simp at this
    · rintro ⟨⟨j, hj, hp⟩, hmin⟩
      have hj' : j = k + 1 := by
        by_contra hne
        exact hmin j (by omega) hp
      subst hj'
      refine ⟨?_, hmtIn hp (fun j' hj' hp' => hmin j' (by omega) hp')⟩
      cases hq : List.lookup x pmap with
      | none => rfl
      | some v =>
        obtain ⟨j'', hj'', hp''⟩ := (hinv.dom x).mp (by rw [hq]; simp)
        exact absurd hp'' (hmin j'' (by omega))
  · intro x hx
    rcases (fwdScan_inl_dom hscan x).mp hx with hin | hmt
    · exact Or.inl hin
    · right
      obtain ⟨y, er, hy, he, hm⟩ := matchTargets_outEdges_elim hmt
      exact fwdScan_inl_nosucc hscan (y, x, er) (mem_outEdges.mpr ⟨hy, he⟩) hm

/-- If a fringe has emptied, every unit with a matching walk from the
endpoint set is already within distance `k`. -/
theorem distLeF_of_fringe_empty {g : Graph} {rel : RelName} {S : List Node}
    {pmap : PredMap} {fringe : List Node} {k : Nat}
    (hinv : HalfInv g rel S pmap fringe k) (hfr : fringe = []) :
    ∀ n x, PathFrom g rel S n x → DistLeF g rel S k x := by
  intro n
  induction n using Nat.strong_induction_on with
  | _ n ih =>
    intro x hp
    by_cases hle : n ≤ k
    · exact ⟨n, hle, hp⟩
    · obtain ⟨s, hs, hr⟩ := hp
      obtain ⟨y, h1, h2⟩ := hr.split k (by omega)
      by_cases hshort : ∃ j, j < k ∧ PathFrom g rel S j y
      · obtain ⟨j, hj, s', hs', hr'⟩ := hshort
        exact ih (j + (n - k)) (by omega) x ⟨s', hs', hr'.trans h2⟩
      · have hy : y ∈ fringe := (hinv.fringeIff y).mpr
          ⟨⟨k, le_rfl, ⟨s, hs, h1⟩⟩, fun j hj hp' => hshort ⟨j, hj, hp'⟩⟩
        rw [hfr] at hy
        exact absurd hy (List.not_mem_nil y)

/-- A matching directed walk of at most `depth` edges from a source unit to
a target unit exists. -/
def ExistsPathLe (g : Graph) (rel : RelName) (S T : List Node) (depth : Nat) : Prop :=
  ∃ n, n ≤ depth ∧ ∃ s ∈ S, ∃ t ∈ T, ReachN g rel n s t

theorem existsPath_of_meet {g : Graph} {rel : RelName} {S T : List Node} {depth : Nat}
    {kf kb : Nat} {w : Node}
    (hf : DistLeF g rel S kf w) (hb : DistLeF (revGraph g) rel T kb w)
    (hle : kf + kb ≤ depth) : ExistsPathLe g rel S T depth := by
  obtain ⟨jf, hjf, s, hs, hrf⟩ := hf
  obtain ⟨jb, hjb, t, ht, hrb⟩ := hb
  exact ⟨jf + jb, by omega, s, hs, t, ht, hrf.trans (reachN_rev_iff.mp hrb)⟩

theorem no_path_of_disj {g : Graph} {rel : RelName} {S T : List Node}
    {pred succ : PredMap} {kf kb : Nat} {depth : Nat}
    (hpd : ∀ x, (List.lookup x pred).isSome ↔ DistLeF g rel S kf x)
    (hsd : ∀ x, (List.lookup x succ).isSome ↔ DistLeF (revGraph g) rel T kb x)
    (hdisj : ∀ x, ¬((List.lookup x pred).isSome ∧ (List.lookup x succ).isSome))
    (hdep : depth ≤ kf + kb) :
    ¬ ExistsPathLe g rel S T depth := by
  rintro ⟨n, hn, s, hs, t, ht, hr⟩
  obtain ⟨y, h1, h2⟩ := hr.split (min kf n) (min_le_right _ _)
  have hfy : DistLeF g rel S kf y := ⟨min kf n, min_le_left _ _, s, hs, h1⟩
  have hby : DistLeF (revGraph g) rel T kb y :=
    ⟨n - min kf n, by omega, t, ht, reachN_rev h2⟩
  exact hdisj y ⟨(hpd y).mpr hfy, (hsd y).mpr hby⟩

/-- Correctness of the alternating expansion loop: from a state in which both
frontiers satisfy their invariant at `k` expansions each (`level = 2k`) and
the recorded sets are disjoint, the loop reports no path exactly when no
matching walk of at most `depth` edges leads from a source to a target. -/
theorem bidirLoop_noPath_iff (g : Graph) (rel : RelName) (S T : List Node) (depth : Nat) :
    ∀ (fuel : Nat) (pred succ : PredMap) (ff rf : List Node) (k : Nat),
      HalfInv g rel S pred ff k →
      HalfInv (revGraph g) rel T succ rf k →
      (∀ x, ¬((List.lookup x pred).isSome ∧ (List.lookup x succ).isSome)) →
      2 * k ≤ depth →
      depth + 1 ≤ fuel + 2 * k →
      ((bidirLoop g rel depth fuel pred succ ff rf (2 * k) = BidirResult.noPath) ↔
        ¬ ExistsPathLe g rel S T depth) := by
  intro fuel
  induction fuel with
  | zero =>
    intro pred succ ff rf k _ _ _ h1 h2
    omega
  | succ fuel ih =>
    intro pred succ ff rf k hinvF hinvB hdisj hk hfuel
    by_cases hffe : ff = []
    · have hg : (ff.isEmpty || rf.isEmpty || ((2 * k : Nat) == depth)) = true := by
        simp [hffe]
      unfold bidirLoop
      rw [if_pos hg]
      simp only [true_iff]
      rintro ⟨n, hn, s, hs, t, ht, hr⟩
      have h1 := distLeF_of_fringe_empty hinvF hffe n t ⟨s, hs, hr⟩
      have h2 : DistLeF (revGraph g) rel T k t := ⟨0, Nat.zero_le k, t, ht, ReachN.refl t⟩
      exact hdisj t ⟨(hinvF.dom t).mpr h1, (hinvB.dom t).mpr h2⟩
    · by_cases hrfe : rf = []
      · have hg : (ff.isEmpty || rf.isEmpty || ((2 * k : Nat) == depth)) = true := by
          simp [hrfe]
        unfold bidirLoop
        rw [if_pos hg]
        simp only [true_iff]
        rintro ⟨n, hn, s, hs, t, ht, hr⟩
        have h1 := distLeF_of_fringe_empty hinvB hrfe n s ⟨t, ht, reachN_rev hr⟩
        have h2 : DistLeF g rel S 0 s := ⟨0, le_rfl, s, hs, ReachN.refl s⟩
        exact hdisj s ⟨(hinvF.dom s).mpr (distLeF_mono (Nat.zero_le k) h2),
          (hinvB.dom s).mpr h1⟩
      · by_cases hkd : 2 * k = depth
        · have hg : (ff.isEmpty || rf.isEmpty || ((2 * k : Nat) == depth)) = true := by
            simp [hkd]
          unfold bidirLoop
          rw [if_pos hg]
          simp only [true_iff]
          exact no_path_of_disj hinvF.dom hinvB.dom hdisj (by omega)
        · have hg : (ff.isEmpty || rf.isEmpty || ((2 * k : Nat) == depth)) = false := by
            simp only [Bool.or_eq_false_iff]
            refine ⟨⟨?_, ?_⟩, ?_⟩
            · simpa [List.isEmpty_iff] using hffe
            · simpa [List.isEmpty_iff] using hrfe
            · simpa using hkd
          unfold bidirLoop
          simp only [hg, Bool.false_eq_true, if_false]
          cases hscan : fwdScan rel succ (outEdges g ff) pred [] with
          | inr pw =>
            simp only [hscan]
            constructor
            · intro h
              exact BidirResult.noConfusion h
            · intro hne
              obtain ⟨hsome, hmt⟩ := fwdScan_inr_found hscan
              have hfd : DistLeF g rel S (k + 1) pw.2 := by
                obtain ⟨y, er, hy, he, hm⟩ := matchTargets_outEdges_elim hmt
                obtain ⟨⟨j, hj, hp⟩, -⟩ := (hinvF.fringeIff y).mp hy
                exact ⟨j + 1, by omega, pathFrom_step hp he hm⟩
              exact absurd (existsPath_of_meet hfd ((hinvB.dom pw.2).mp hsome)
                (by omega)) hne
          | inl pf =>
            simp only [hscan]
            obtain ⟨hinvF', hnew⟩ := fwdRound hinvF hscan
            have hdisj' : ∀ x,
                ¬((List.lookup x pf.1).isSome ∧ (List.lookup x succ).isSome) := by
              rintro x ⟨h1, h2⟩
              rcases hnew x h1 with hold | hnone
              · exact hdisj x ⟨hold, h2⟩
              · rw [hnone] at h2
                simp at h2
            by_cases hkd1 : 2 * k + 1 = depth
            · have hpos : ((2 * k + 1 : Nat) == depth) = true := by simp [hkd1]
              rw [if_pos hpos]
              simp only [true_iff]
              exact no_path_of_disj hinvF'.dom hinvB.dom hdisj' (by omega)
            · have hneg : ((2 * k + 1 : Nat) == depth) = false := by simpa using hkd1
              simp only [hneg, Bool.false_eq_true, if_false]
              rw [bwdScan_eq_fwdScan, inEdges_map_swap]
              cases hbscan : fwdScan rel pf.1 (outEdges (revGraph g) rf) succ [] with
              | inr sw =>
                simp only [hbscan]
                constructor
                · intro h
                  exact BidirResult.noConfusion h
                · intro hne
                  obtain ⟨hsome, hmt⟩ := fwdScan_inr_found hbscan
                  have hbd : DistLeF (revGraph g) rel T (k + 1) sw.2 := by
                    obtain ⟨z, er, hz, he, hm⟩ := matchTargets_outEdges_elim hmt
                    obtain ⟨⟨j, hj, hp⟩, -⟩ := (hinvB.fringeIff z).mp hz
                    exact ⟨j + 1, by omega, pathFrom_step hp he hm⟩
                  exact absurd (existsPath_of_meet ((hinvF'.dom sw.2).mp hsome) hbd
                    (by omega)) hne
              | inl sf =>
                simp only [hbscan]
                obtain ⟨hinvB', hnewB⟩ := fwdRound hinvB hbscan
                have hdisj'' : ∀ x,
                    ¬((List.lookup x pf.1).isSome ∧ (List.lookup x sf.1).isSome) := by
                  rintro x ⟨h1, h2⟩
                  rcases hnewB x h2 with hold | hnone
                  · exact hdisj' x ⟨h1, hold⟩
                  · rw [hnone] at h1
                    simp at h1
                have h2k2 : 2 * k + 2 = 2 * (k + 1) := by ring
                rw [h2k2]
                exact ih pf.1 sf.1 pf.2 sf.2 (k + 1) hinvF' hinvB' hdisj''
                  (by omega) (by omega)

theorem lookup_initMap (L : List Node) (x : Node) :
    (List.lookup x (initMap L)).isSome ↔ x ∈ L := by
  unfold initMap
  induction L with
  | nil => simp [List.lookup]
  | cons a as ih =>
    simp only [List.map_cons, lookup_cons]
    by_cases hx : x = a
    · simp [hx]
    · simp only [hx, if_false, ih]
      simp [hx]

theorem succChainToks_ne_nil (succ : PredMap) (fuel : Nat) (lu : Node) :
    succChainToks succ fuel lu ≠ [] := by
  cases fuel with
  | zero => simp [succChainToks]
  | succ fuel => simp [succChainToks]

theorem reconstruct_found_ne_nil (pred : PredMap) (w : Node) (succ : PredMap) :
    reconstructPath (BidirResult.found pred w succ) ≠ [] := by
  unfold reconstructPath
  intro h
  exact succChainToks_ne_nil succ (succ.length + 1) w (List.append_eq_nil.mp h).2

/-- The expansion loop only ever reports "no path" or a meeting point; the
trivial single-unit shape is produced only by the intersection check. -/
theorem bidirLoop_shape (g : Graph) (rel : RelName) (depth : Nat) :
    ∀ (fuel : Nat) (pred succ : PredMap) (ff rf : List Node) (level : Nat),
      bidirLoop g rel depth fuel pred succ ff rf level = BidirResult.noPath ∨
      ∃ p w s, bidirLoop g rel depth fuel pred succ ff rf level =
        BidirResult.found p w s := by
  intro fuel
  induction fuel with
  | zero =>
    intro pred succ ff rf level
    exact Or.inl rfl
  | succ fuel ih =>
    intro pred succ ff rf level
    unfold bidirLoop
    by_cases hg : (ff.isEmpty || rf.isEmpty || (level == depth)) = true
    · rw [if_pos hg]
      exact Or.inl rfl
    · rw [if_neg hg]
      cases hscan : fwdScan rel succ (outEdges g ff) pred [] with
      | inr pw => exact Or.inr ⟨pw.1, pw.2, succ, rfl⟩
      | inl pf =>
        show (if (level + 1 == depth) = true then BidirResult.noPath
          else match bwdScan rel pf.1 (inEdges g rf) succ [] with
          | Sum.inr sw => BidirResult.found pf.1 sw.2 sw.1
          | Sum.inl sf =>
            bidirLoop g rel depth fuel pf.1 sf.1 pf.2 sf.2 (level + 2)) =
            BidirResult.noPath ∨ ∃ p w s, (if (level + 1 == depth) = true
          then BidirResult.noPath
          else match bwdScan rel pf.1 (inEdges g rf) succ [] with
          | Sum.inr sw => BidirResult.found pf.1 sw.2 sw.1
          | Sum.inl sf =>
            bidirLoop g rel depth fuel pf.1 sf.1 pf.2 sf.2 (level + 2)) =
            BidirResult.found p w s
        by_cases hd1 : ((level + 1 : Nat) == depth) = true
        · rw [if_pos hd1]
          exact Or.inl rfl
        · rw [if_neg hd1]
          cases hbscan : bwdScan rel pf.1 (inEdges g rf) succ [] with
          | inr sw => exact Or.inr ⟨pf.1, sw.2, sw.1, rfl⟩
          | inl sf => exact ih pf.1 sf.1 pf.2 sf.2 (level + 2)

/-- C1: for every graph, every pair of resolved source/target unit sets,
every relation-name filter and every depth bound `d ≥ 1`,
`test_lex_units_relation` (via `_bidirectional_shortest_path`) returns a
non-empty path exactly when some directed path of at most `d` matching edges
leads from a source unit to a target unit; and when the source and target
sets intersect it returns the trivial single-node path. -/
theorem C1_test_lex_units_relation (g : Graph) (rel : RelName)
    (fromLus toLus : List Node) (d : Nat) (hd : 1 ≤ d) :
    (testLexUnitsRelation g rel d fromLus toLus ≠ [] ↔
      ExistsPathLe g rel fromLus toLus d) ∧
    ((∃ x ∈ fromLus, x ∈ toLus) →
      ∃ w, w ∈ fromLus ∧ w ∈ toLus ∧
        testLexUnitsRelation g rel d fromLus toLus = [Sum.inl w]) := by
  unfold testLexUnitsRelation bidirectionalShortestPath
  cases hfind : fromLus.find? (fun x => (List.lookup x (initMap toLus)).isSome) with
  | some w =>
    simp only [hfind]
    have hw1 : w ∈ fromLus := List.mem_of_find?_eq_some hfind
    have hw2 : w ∈ toLus := (lookup_initMap toLus w).mp (by
      have h := List.find?_some hfind
      simpa using h)
    constructor
    · constructor
      · intro _
        exact ⟨0, Nat.zero_le d, w, hw1, w, hw2, ReachN.refl w⟩
      · intro _
        simp [reconstructPath]
    · intro _
      exact ⟨w, hw1, hw2, rfl⟩
  | none =>
    simp only [hfind]
    have hnotint : ∀ x ∈ fromLus, x ∉ toLus := by
      intro x hx hmem
      have h := List.find?_eq_none.mp hfind x hx
      exact h ((lookup_initMap toLus x).mpr hmem)
    have hhalf : ∀ (g' : Graph) (L : List Node),
        HalfInv g' rel L (initMap L) L 0 := by
      intro g' L
      refine ⟨?_, ?_⟩
      · intro x
        rw [lookup_initMap, distLeF_zero]
      · intro x
        rw [distLeF_zero]
        constructor
        · intro h
          exact ⟨h, fun j hj => absurd hj (Nat.not_lt_zero j)⟩
        · rintro ⟨h, -⟩
          exact h
    have hdisj : ∀ x, ¬((List.lookup x (initMap fromLus)).isSome ∧
        (List.lookup x (initMap toLus)).isSome) := by
      rintro x ⟨h1, h2⟩
      exact hnotint x ((lookup_initMap fromLus x).mp h1) ((lookup_initMap toLus x).mp h2)
    have hloop := bidirLoop_noPath_iff g rel fromLus toLus d (d + 1)
      (initMap fromLus) (initMap toLus) fromLus toLus 0
      (hhalf g fromLus) (hhalf (revGraph g) toLus) hdisj (by omega) (by omega)
    rw [show 2 * 0 = 0 from rfl] at hloop
    constructor
    · rcases bidirLoop_shape g rel d (d + 1) (initMap fromLus) (initMap toLus)
          fromLus toLus 0 with hsh | ⟨p, w, s, hsh⟩
      · rw [hsh]
        rw [hsh] at hloop
        simp only [reconstructPath, ne_eq, not_true_eq_false, false_iff]
        intro hex
        exact (hloop.mp rfl) hex
      · rw [hsh]
        rw [hsh] at hloop
        constructor
        · intro _
          by_contra hne
          exact BidirResult.noConfusion (hloop.mpr hne)
        · intro _
          exact reconstruct_found_ne_nil p w s
    · rintro ⟨x, hx1, hx2⟩
      exact absurd hx2 (hnotint x hx1)

/-- Witness for C1: on the one-edge graph `0 → 1` with depth 1, the returned
path is non-empty, matching the existing one-edge walk. -/
theorem C1_test_lex_units_relation_witness :
    (1 : Nat) ≤ 1 ∧ (testLexUnitsRelation ⟨[(0, 1, "R")]⟩ "R" 1 [0] [1] ≠ [] ↔
      ExistsPathLe ⟨[(0, 1, "R")]⟩ "R" [0] [1] 1) :=
  ⟨le_rfl, (C1_test_lex_units_relation ⟨[(0, 1, "R")]⟩ "R" [0] [1] 1 le_rfl).1⟩

/-! ## Lexical units and the Cornet store (cornet.py / simcornet.py)

A `<cdb_lu>` `Element` is modelled by the attributes the query layer reads:
the `form-spelling` and `form-cat` attributes of its `<form>` child, the
`c_seq_nr` attribute, and the `count`/`subcount` attributes of `<form>`.
A missing `<form>` element and a missing attribute behave identically in
every accessor (the `AttributeError` handlers), so both are `none`.
Counts are natural numbers (the spec fixes frequencies as integers ≥ 0);
`none` models a missing or unparseable attribute (`TypeError` handler). -/

structure LexUnit where
  id : Node
  form : Option (List Char)
  formCat : Option (List Char)
  seqNr : Option (List Char)
  count : Option Nat
  subcount : Option Nat
deriving DecidableEq

instance : Inhabited LexUnit := ⟨⟨0, none, none, none, none, none⟩⟩

/-- The queryable state of a `Cornet`/`SimCornet` instance after `open`:
the `form → lexical units` index and the `c_lu_id → lexical unit` table
(both in insertion order), the relation graph (nodes are the unit ids), the
per-category count totals of `parse_cdb_with_counts`, and the instance
settings `_output_format` and `_max_depth`. -/
structure CornetState where
  form2lu : List (List Char × List LexUnit)
  cLuId2lu : List (Node × LexUnit)
  graph : Graph
  cat2counts : List (List Char × Nat)
  outputFormat : String
  maxDepth : Nat

/-- `Cornet._lu_has_cat`: an empty category constraint matches everything;
otherwise the unit's lower-cased `form-cat` must equal the constraint (a
missing `<form>`/attribute yields the falsy `""`). -/
def luHasCat (lu : LexUnit) (cat : List Char) : Bool :=
  cat.isEmpty || (match lu.formCat with
    | some c => c.map Char.toLower == cat
    | none => false)

/-- `Cornet._lu_has_sense`: an empty sense constraint matches everything;
otherwise the unit's `c_seq_nr` must equal it (missing attribute fails). -/
def luHasSense (lu : LexUnit) (sense : List Char) : Bool :=
  sense.isEmpty || (match lu.seqNr with
    | some n => n == sense
    | none => false)

/-- `Cornet.get_lex_units(spec, format="raw")`: split the spec, then filter
the form-index bucket by category and sense. -/
def getLexUnits (st : CornetState) (spec : List Char) : List LexUnit :=
  let fields := splitUnitSpec spec
  ((List.lookup (fields.getD 0 []) st.form2lu).getD []).filter
    (fun lu => luHasCat lu (fields.getD 1 []) && luHasSense lu (fields.getD 2 []))

/-- `Cornet._lu_to_spec`: `form:cat:sense` with missing parts empty. -/
def luToSpec (lu : LexUnit) : List Char :=
  lu.form.getD [] ++ [unitSeparator] ++ lu.formCat.getD [] ++ [unitSeparator]
    ++ lu.seqNr.getD []

/-- The lexical-unit record of a graph node (`c_lu_id2lu`); total because
every graph node is a parsed unit (the lookup cannot fail on states built by
`parse_cdb`). -/
def getLu (st : CornetState) (id : Node) : LexUnit :=
  (List.lookup id st.cLuId2lu).getD default

/-! ## `Cornet.all_common_subsumers` / `least_common_subsumers` -/

/-- One assignment `sucs[lu] = 0`: in-place update when the key is already
present, otherwise insertion at the end (Python dict assignment). -/
def setZeroStep (m : List (Node × Nat)) (lu : Node) : List (Node × Nat) :=
  if (List.lookup lu m).isSome then
    m.map (fun p => if p.1 == lu then (p.1, 0) else p)
  else m ++ [(lu, 0)]

/-- `for lu in lus: sucs[lu] = 0`. -/
def setZero (m : List (Node × Nat)) (lus : List Node) : List (Node × Nat) :=
  lus.foldl setZeroStep m

/-- One iteration of the `for lu, dist in sucs1.items()` loop of
`all_common_subsumers`: if the unit also appears in the second closure,
append it to the group of the summed distance
(`acs.setdefault(sum_of_dist, []).append(formatter(lu))`, raw format). -/
def acsStep (sucs2 : List (Node × Nat)) (acs : List (Nat × List Node))
    (p : Node × Nat) : List (Nat × List Node) :=
  match List.lookup p.1 sucs2 with
  | none => acs
  | some d2 =>
    match List.lookup (p.2 + d2) acs with
    | some grp =>
      acs.map (fun q => if q.1 == p.2 + d2 then (q.1, grp ++ [p.1]) else q)
    | none => acs ++ [(p.2 + d2, [p.1])]

/-- The grouping loop of `all_common_subsumers` (Python dict iteration in
insertion order). -/
def buildAcs (sucs1 sucs2 : List (Node × Nat)) : List (Nat × List Node) :=
  sucs1.foldl (acsStep sucs2) []

/-- The body of `all_common_subsumers` from the resolved unit id sets on:
both transitive closures, the seeds written in at distance 0, and the
common units grouped by summed distance. -/
def acsOfUnits (g : Graph) (relName : String) (lus1 lus2 : List Node) :
    List (Nat × List Node) :=
  buildAcs (setZero (transitiveClosure g relName lus1) lus1)
    (setZero (transitiveClosure g relName lus2) lus2)

/-- Python `min` over a non-empty list of naturals. -/
def pyMinNat : List Nat → Option Nat
  | [] => none
  | x :: xs => some (xs.foldl min x)

/-- The body of `least_common_subsumers` given the computed `acs`. -/
def lcsOfAcs (acs : List (Nat × List Node)) : List Node :=
  if acs.isEmpty then []
  else
    match pyMinNat (acs.map (fun p => p.1)) with
    | some m => (List.lookup m acs).getD []
    | none => []

/-- `rel_name.upper()`. -/
def strUpper (s : String) : String := ⟨s.data.map Char.toUpper⟩

/-- `Cornet.all_common_subsumers(spec1, spec2, rel_name, format="raw")`. -/
def allCommonSubsumers (st : CornetState) (spec1 spec2 : List Char)
    (relName : String) : List (Nat × List Node) :=
  acsOfUnits st.graph (strUpper relName)
    ((getLexUnits st spec1).map (fun lu => lu.id))
    ((getLexUnits st spec2).map (fun lu => lu.id))

/-- `Cornet.least_common_subsumers(spec1, spec2, rel_name, format="raw")`:
the group at the minimum key of `all_common_subsumers`, or empty. -/
def leastCommonSubsumers (st : CornetState) (spec1 spec2 : List Char)
    (relName : String) : List Node :=
  lcsOfAcs (allCommonSubsumers st spec1 spec2 relName)

section UpdateLemmas

variable {β : Type}

theorem lookup_map_const_update (m : List (Node × β)) (k : Node) (b : β) :
    List.lookup k (m.map (fun p => if p.1 == k then (p.1, b) else p)) =
      if (List.lookup k m).isSome then some b else none := by
  induction m with
  | nil => simp [List.lookup]
  | cons p ps ih =>
    obtain ⟨k', v⟩ := p
    by_cases hk : k = k'
    · subst hk
      simp only [List.map_cons, beq_self_eq_true, if_true, lookup_cons, if_pos rfl]
      simp [lookup_cons]
    · have hb : (k' == k) = false := by simpa using (Ne.symm hk)
      simp only [List.map_cons, hb, Bool.false_eq_true, if_false, lookup_cons,
        if_neg hk, ih]

theorem lookup_map_const_update_ne {x k : Node} (m : List (Node × β)) (b : β)
    (h : x ≠ k) :
    List.lookup x (m.map (fun p => if p.1 == k then (p.1, b) else p)) =
      List.lookup x m := by
  induction m with
  | nil => simp
  | cons p ps ih =>
    obtain ⟨k', v⟩ := p
    by_cases hk : k' = k
    · subst hk
      simp only [List.map_cons, beq_self_eq_true, if_true, lookup_cons, if_neg h, ih]
    · have hb : (k' == k) = false := by simpa using hk
      simp only [List.map_cons, hb, Bool.false_eq_true, if_false]
      by_cases hx : x = k'
      · subst hx
        rw [lookup_cons, if_pos rfl, lookup_cons, if_pos rfl]
      · rw [lookup_cons, if_neg hx, lookup_cons, if_neg hx, ih]

end UpdateLemmas

theorem setZeroStep_lookup_self (m : List (Node × Nat)) (lu : Node) :
    List.lookup lu (setZeroStep m lu) = some 0 := by
  unfold setZeroStep
  by_cases h : (List.lookup lu m).isSome
  · rw [if_pos h, lookup_map_const_update, if_pos h]
  · rw [if_neg h, lookup_append_right _ (Option.not_isSome_iff_eq_none.mp h),
      lookup_cons, if_pos rfl]

theorem setZeroStep_lookup_other {x lu : Node} (m : List (Node × Nat)) (h : x ≠ lu) :
    List.lookup x (setZeroStep m lu) = List.lookup x m := by
  unfold setZeroStep
  by_cases hs : (List.lookup lu m).isSome
  · rw [if_pos hs, lookup_map_const_update_ne _ _ h]
  · rw [if_neg hs, lookup_append_singleton_ne h]

theorem setZero_preserve_zero {x : Node} :
    ∀ (lus : List Node) (m : List (Node × Nat)), List.lookup x m = some 0 →
      List.lookup x (setZero m lus) = some 0 := by
  intro lus
  induction lus with
  | nil => intro m h; exact h
  | cons lu lus ih =>
    intro m h
    apply ih
    by_cases hx : x = lu
    · subst hx
      exact setZeroStep_lookup_self m x
    · rw [setZeroStep_lookup_other m hx]
      exact h

theorem setZero_lookup_of_mem {x : Node} :
    ∀ (lus : List Node) (m : List (Node × Nat)), x ∈ lus →
      List.lookup x (setZero m lus) = some 0 := by
  intro lus
  induction lus with
  | nil => intro m h; exact absurd h (List.not_mem_nil x)
  | cons lu lus ih =>
    intro m h
    rcases List.mem_cons.mp h with h' | h'
    · subst h'
      exact setZero_preserve_zero lus _ (setZeroStep_lookup_self m x)
    · exact ih _ h'

theorem acsStep_eq_none (sucs2 : List (Node × Nat)) (acs : List (Nat × List Node))
    (p : Node × Nat) (h : List.lookup p.1 sucs2 = none) :
    acsStep sucs2 acs p = acs := by
  simp only [acsStep, h]

theorem acsStep_eq_upd (sucs2 : List (Node × Nat)) (acs : List (Nat × List Node))
    (p : Node × Nat) (d2 : Nat) (grp : List Node)
    (h : List.lookup p.1 sucs2 = some d2)
    (hk : List.lookup (p.2 + d2) acs = some grp) :
    acsStep sucs2 acs p =
      acs.map (fun q => if q.1 == p.2 + d2 then (q.1, grp ++ [p.1]) else q) := by
  simp only [acsStep, h, hk]

theorem acsStep_eq_app (sucs2 : List (Node × Nat)) (acs : List (Nat × List Node))
    (p : Node × Nat) (d2 : Nat)
    (h : List.lookup p.1 sucs2 = some d2)
    (hk : List.lookup (p.2 + d2) acs = none) :
    acsStep sucs2 acs p = acs ++ [(p.2 + d2, [p.1])] := by
  simp only [acsStep, h, hk]

theorem acsStep_mono {sucs2 : List (Node × Nat)} {acs : List (Nat × List Node)}
    {key : Nat} {x : Node} (p : Node × Nat)
    (h : ∃ grp, List.lookup key acs = some grp ∧ x ∈ grp) :
    ∃ grp, List.lookup key (acsStep sucs2 acs p) = some grp ∧ x ∈ grp := by
  obtain ⟨grp, hl, hx⟩ := h
  cases h2 : List.lookup p.1 sucs2 with
  | none =>
    rw [acsStep_eq_none _ _ _ h2]
    exact ⟨grp, hl, hx⟩
  | some d2 =>
    cases hk : List.lookup (p.2 + d2) acs with
    | some grp0 =>
      rw [acsStep_eq_upd _ _ _ _ _ h2 hk]
      by_cases hkey : key = p.2 + d2
      · subst hkey
        rw [hl] at hk
        cases hk
        refine ⟨grp ++ [p.1], ?_, List.mem_append.mpr (Or.inl hx)⟩
        rw [lookup_map_const_update, hl]
        rfl
      · exact ⟨grp, by rw [lookup_map_const_update_ne _ _ hkey]; exact hl, hx⟩
    | none =>
      rw [acsStep_eq_app _ _ _ _ h2 hk]
      by_cases hkey : key = p.2 + d2
      · subst hkey
        rw [hl] at hk
        exact Option.noConfusion hk
      · exact ⟨grp, by rw [lookup_append_singleton_ne hkey]; exact hl, hx⟩

theorem acsStep_self {sucs2 : List (Node × Nat)} {acs : List (Nat × List Node)}
    {p : Node × Nat} {d2 : Nat} (h2 : List.lookup p.1 sucs2 = some d2) :
    ∃ grp, List.lookup (p.2 + d2) (acsStep sucs2 acs p) = some grp ∧ p.1 ∈ grp := by
  cases hk : List.lookup (p.2 + d2) acs with
  | some grp0 =>
    rw [acsStep_eq_upd _ _ _ _ _ h2 hk]
    refine ⟨grp0 ++ [p.1], ?_, List.mem_append.mpr (Or.inr (List.mem_singleton.mpr rfl))⟩
    rw [lookup_map_const_update, hk]
    rfl
  | none =>
    rw [acsStep_eq_app _ _ _ _ h2 hk]
    refine ⟨[p.1], ?_, List.mem_singleton.mpr rfl⟩
    rw [lookup_append_right _ hk, lookup_cons, if_pos rfl]

theorem buildAcsFold_mono (sucs2 : List (Node × Nat)) :
    ∀ (l : List (Node × Nat)) (acs : List (Nat × List Node)) {key : Nat} {x : Node},
      (∃ grp, List.lookup key acs = some grp ∧ x ∈ grp) →
      ∃ grp, List.lookup key (l.foldl (acsStep sucs2) acs) = some grp ∧ x ∈ grp := by
  intro l
  induction l with
  | nil => intro acs key x h; exact h
  | cons p ps ih => intro acs key x h; exact ih _ (acsStep_mono p h)

theorem buildAcs_mem {sucs1 sucs2 : List (Node × Nat)} {x : Node} {d1 d2 : Nat}
    (h1 : (x, d1) ∈ sucs1) (h2 : List.lookup x sucs2 = some d2) :
    ∃ grp, List.lookup (d1 + d2) (buildAcs sucs1 sucs2) = some grp ∧ x ∈ grp := by
  unfold buildAcs
  have haux : ∀ (l : List (Node × Nat)) (acs : List (Nat × List Node)),
      (x, d1) ∈ l →
      ∃ grp, List.lookup (d1 + d2) (l.foldl (acsStep sucs2) acs) = some grp ∧ x ∈ grp := by
    intro l
    induction l with
    | nil => intro acs h; exact absurd h (List.not_mem_nil _)
    | cons p ps ih =>
      intro acs h
      rcases List.mem_cons.mp h with h' | h'
      · subst h'
        have hself := @acsStep_self sucs2 acs (x, d1) d2 h2
        exact buildAcsFold_mono sucs2 ps _ hself
      · exact ih _ h'
  exact haux sucs1 [] h1

theorem pyMinNat_spec (l : List Nat) (h : l ≠ []) :
    ∃ m, pyMinNat l = some m ∧ m ∈ l ∧ ∀ k ∈ l, m ≤ k := by
  cases l with
  | nil => exact absurd rfl h
  | cons x xs =>
    have haux : ∀ (ys : List Nat) (a : Nat),
        (ys.foldl min a = a ∨ ys.foldl min a ∈ ys) ∧
          ys.foldl min a ≤ a ∧ ∀ k ∈ ys, ys.foldl min a ≤ k := by
      intro ys
      induction ys with
      | nil => intro a; exact ⟨Or.inl rfl, le_rfl, fun k hk => absurd hk (List.not_mem_nil k)⟩
      | cons y ys ih =>
        intro a
        obtain ⟨hmem, hle, hall⟩ := ih (min a y)
        constructor
        · rcases hmem with hm | hm
          · rcases le_total a y with hay | hay
            · left
              rw [List.foldl_cons, hm, min_eq_left hay]
            · right
              rw [List.foldl_cons, hm, min_eq_right hay]
              exact List.mem_cons_self y ys
          · right
            rw [List.foldl_cons]
            exact List.mem_cons_of_mem y hm
        · constructor
          · exact le_trans hle (min_le_left a y)
          · intro k hk
            rcases List.mem_cons.mp hk with hk' | hk'
            · subst hk'
              exact le_trans hle (min_le_right a k)
            · exact hall k hk'
    obtain ⟨hmem, hle, hall⟩ := haux xs x
    refine ⟨xs.foldl min x, rfl, ?_, ?_⟩
    · rcases hmem with hm | hm
      · rw [hm]; exact List.mem_cons_self x xs
      · exact List.mem_cons_of_mem x hm
    · intro k hk
      rcases List.mem_cons.mp hk with hk' | hk'
      · subst hk'; exact hle
      · exact hall k hk'

/-- C4: `least_common_subsumers` is exactly the group stored under the
minimum path-length key of `all_common_subsumers` (hence contained in the
keys-minimal group), the empty list when `all_common_subsumers` is empty,
and a unit resolved by both specs appears in the group with key 0 and is a
least common subsumer. -/
theorem C4_least_common_subsumers (st : CornetState) (spec1 spec2 : List Char)
    (relName : String) :
    (allCommonSubsumers st spec1 spec2 relName = [] →
      leastCommonSubsumers st spec1 spec2 relName = []) ∧
    (allCommonSubsumers st spec1 spec2 relName ≠ [] →
      ∃ m, pyMinNat ((allCommonSubsumers st spec1 spec2 relName).map
          (fun p => p.1)) = some m ∧
        leastCommonSubsumers st spec1 spec2 relName =
          (List.lookup m (allCommonSubsumers st spec1 spec2 relName)).getD [] ∧
        ∀ k ∈ (allCommonSubsumers st spec1 spec2 relName).map (fun p => p.1), m ≤ k) ∧
    (∀ lu, lu ∈ getLexUnits st spec1 → lu ∈ getLexUnits st spec2 →
      ∃ grp, List.lookup 0 (allCommonSubsumers st spec1 spec2 relName) = some grp ∧
        lu.id ∈ grp ∧ lu.id ∈ leastCommonSubsumers st spec1 spec2 relName) := by
  refine ⟨?_, ?_, ?_⟩
  · intro h
    unfold leastCommonSubsumers lcsOfAcs
    rw [h]
    simp
  · intro h
    have hkeys : (allCommonSubsumers st spec1 spec2 relName).map (fun p => p.1) ≠ [] := by
      simpa using h
    obtain ⟨m, hm, hmem, hall⟩ := pyMinNat_spec _ hkeys
    refine ⟨m, hm, ?_, hall⟩
    unfold leastCommonSubsumers lcsOfAcs
    rw [if_neg (by simpa [List.isEmpty_iff] using h), hm]
  · intro lu h1 h2
    have hz1 : List.lookup lu.id (setZero
        (transitiveClosure st.graph (strUpper relName)
          ((getLexUnits st spec1).map (fun l => l.id)))
        ((getLexUnits st spec1).map (fun l => l.id))) = some 0 :=
      setZero_lookup_of_mem _ _ (List.mem_map_of_mem _ h1)
    have hz2 : List.lookup lu.id (setZero
        (transitiveClosure st.graph (strUpper relName)
          ((getLexUnits st spec2).map (fun l => l.id)))
        ((getLexUnits st spec2).map (fun l => l.id))) = some 0 :=
      setZero_lookup_of_mem _ _ (List.mem_map_of_mem _ h2)
    have hacs : ∃ grp, List.lookup 0 (allCommonSubsumers st spec1 spec2 relName)
        = some grp ∧ lu.id ∈ grp := by
      unfold allCommonSubsumers acsOfUnits
      exact buildAcs_mem (lookup_mem hz1) hz2
    obtain ⟨grp, hl, hx⟩ := hacs
    have hne : allCommonSubsumers st spec1 spec2 relName ≠ [] := by
      intro hnil
      rw [hnil] at hl
      simp [List.lookup] at hl
    have hkeys : (allCommonSubsumers st spec1 spec2 relName).map (fun p => p.1) ≠ [] := by
      simpa using hne
    obtain ⟨m, hm, hmem, hall⟩ := pyMinNat_spec _ hkeys
    have h0 : (0 : Nat) ∈ (allCommonSubsumers st spec1 spec2 relName).map
        (fun p => p.1) := by
      rw [List.mem_map]
      exact ⟨(0, grp), lookup_mem hl, rfl⟩
    have hm0 : m = 0 := Nat.le_zero.mp (hall 0 h0)
    subst hm0
    refine ⟨grp, hl, hx, ?_⟩
    unfold leastCommonSubsumers lcsOfAcs
    rw [if_neg (by simpa [List.isEmpty_iff] using hne), hm]
    show lu.id ∈ (List.lookup 0 (allCommonSubsumers st spec1 spec2 relName)).getD []
    rw [hl]
    exact hx

def c4Lu : LexUnit := ⟨1, some ['a'], none, none, none, none⟩

def c4St : CornetState :=
  ⟨[(['a'], [c4Lu])], [(1, c4Lu)], Graph.empty, [], "raw", 5⟩

theorem C4_least_common_subsumers_witness :
    ∃ grp, List.lookup 0 (allCommonSubsumers c4St ['a'] ['a'] "HYPERONYM")
        = some grp ∧ c4Lu.id ∈ grp ∧
      c4Lu.id ∈ leastCommonSubsumers c4St ['a'] ['a'] "HYPERONYM" :=
  (C4_least_common_subsumers c4St ['a'] ['a'] "HYPERONYM").2.2 c4Lu
    (by decide) (by decide)

/-! ## `SimCornet`: counts, probabilities and information content -/

/-- `SimCornet._get_lu_count`: the unit's `count`/`subcount` attribute,
`None` when the attribute (or the `<form>` element) is absent. -/
def getLuCount (lu : LexUnit) (subcount : Bool) : Option Nat :=
  if subcount then lu.subcount else lu.count

/-- `SimCornet._p`: maximum-likelihood probability `count / total`, with
optional add-one smoothing of zero counts and optional per-category totals
(`_get_lu_cat` falls back to `"all"` on an empty category); a missing count
gives `None`; a missing totals entry (a Python `KeyError`, impossible on
parsed stores) is modelled as `None`. -/
def pP (st : CornetState) (lu : LexUnit) (subcount smooth catTotals : Bool) :
    Option ℚ :=
  match getLuCount lu subcount with
  | none => none
  | some c0 =>
    let c := if c0 == 0 && smooth then 1 else c0
    let cat := if catTotals then
        (if (lu.formCat.getD []).isEmpty then String.toList "all"
         else lu.formCat.getD [])
      else String.toList "all"
    match List.lookup cat st.cat2counts with
    | none => none
    | some total => some ((c : ℚ) / (total : ℚ))

/-- `SimCornet._IC` with `base=2`: `-log(p, 2)`; `None` on a missing count
(`TypeError`) or a zero probability (`OverflowError`). The base-2 logarithm
is passed in as a function so evaluation on concrete stores stays
executable. -/
def IC (log2 : ℚ → ℚ) (st : CornetState) (lu : LexUnit)
    (subcount smooth catTotals : Bool) : Option ℚ :=
  match pP st lu subcount smooth catTotals with
  | none => none
  | some p => if p = 0 then none else some (-(log2 p))

/-- Python 2 `max` of two possibly-`None` values: `None` compares below
every number. -/
def optMax2 (a b : Option ℚ) : Option ℚ :=
  match a, b with
  | none, b => b
  | some x, none => some x
  | some x, some y => if x ≤ y then some y else some x

/-- Python `max` over a list (callers exclude the empty list). -/
def pyMaxOpt : List (Option ℚ) → Option ℚ
  | [] => none
  | x :: xs => xs.foldl optMax2 x

/-- `SimCornet.resnik_sim`: `None` unless both specs resolve to units;
otherwise the maximum IC over the least common subsumers of the two *whole*
specs — `least_common_subsumers(lu_spec1, lu_spec2, format="raw")` is called
once on the full spec strings with the default relation `HAS_HYPERONYM` —
or `0.0` when that set is empty. -/
def resnikLcsIcs (log2 : ℚ → ℚ) (st : CornetState) (spec1 spec2 : List Char)
    (smooth catTotals : Bool) : List (Option ℚ) :=
  (leastCommonSubsumers st spec1 spec2 "HAS_HYPERONYM").map
    (fun id => IC log2 st (getLu st id) true smooth catTotals)

def resnikSim (log2 : ℚ → ℚ) (st : CornetState) (spec1 spec2 : List Char)
    (smooth catTotals : Bool) : Option ℚ :=
  if (getLexUnits st spec1).isEmpty || (getLexUnits st spec2).isEmpty then none
  else if (resnikLcsIcs log2 st spec1 spec2 smooth catTotals).isEmpty then some 0
  else pyMaxOpt (resnikLcsIcs log2 st spec1 spec2 smooth catTotals)

/-- The least common subsumers of one concrete pair of units. -/
def lcsOfPair (st : CornetState) (id1 id2 : Node) (relName : String) :
    List Node :=
  lcsOfAcs (acsOfUnits st.graph (strUpper relName) [id1] [id2])

/-- The claim's (and the docstring's) reading of `resnik_sim`: the maximum
IC over the least common subsumers of every *pair* of resolved units. -/
def resnikClaimIcs (log2 : ℚ → ℚ) (st : CornetState) (spec1 spec2 : List Char)
    (smooth catTotals : Bool) : List (Option ℚ) :=
  (getLexUnits st spec1).flatMap (fun u1 =>
    (getLexUnits st spec2).flatMap (fun u2 =>
      (lcsOfPair st u1.id u2.id "HAS_HYPERONYM").map
        (fun id => IC log2 st (getLu st id) true smooth catTotals)))

def resnikSimClaim (log2 : ℚ → ℚ) (st : CornetState) (spec1 spec2 : List Char)
    (smooth catTotals : Bool) : Option ℚ :=
  if (getLexUnits st spec1).isEmpty || (getLexUnits st spec2).isEmpty then none
  else if (resnikClaimIcs log2 st spec1 spec2 smooth catTotals).isEmpty then some 0
  else pyMaxOpt (resnikClaimIcs log2 st spec1 spec2 smooth catTotals)

def c5u1 : LexUnit := ⟨1, some ['a'], none, none, none, none⟩

def c5u2 : LexUnit := ⟨2, some ['a'], none, none, none, none⟩

def c5u3 : LexUnit := ⟨3, some ['b'], none, none, none, none⟩

def c5u4 : LexUnit := ⟨4, some ['p'], none, none, none, none⟩

def c5u5 : LexUnit := ⟨5, some ['x'], none, none, none, some 4⟩

def c5u6 : LexUnit := ⟨6, some ['y'], none, none, none, some 1⟩

def c5Graph : Graph :=
  ⟨[(1, 5, "HAS_HYPERONYM"), (3, 5, "HAS_HYPERONYM"), (2, 4, "HAS_HYPERONYM"),
    (4, 6, "HAS_HYPERONYM"), (3, 6, "HAS_HYPERONYM")]⟩

def c5St : CornetState :=
  ⟨[(['a'], [c5u1, c5u2]), (['b'], [c5u3]), (['p'], [c5u4]),
    (['x'], [c5u5]), (['y'], [c5u6])],
   [(1, c5u1), (2, c5u2), (3, c5u3), (4, c5u4), (5, c5u5), (6, c5u6)],
   c5Graph, [(String.toList "all", 8)], "raw", 9⟩

/-- A base-2 logarithm table sufficient for the probabilities arising in
`c5St` (subcounts 4 and 1 over total 8). -/
def c5Log2 (q : ℚ) : ℚ := if q = 1/2 then -1 else if q = 1/8 then -3 else 0

/-- C5: `resnik_sim` does NOT take the maximum over the least common
subsumers of every pair of resolved units: it calls
`least_common_subsumers` once on the whole specs. On `c5St`, spec "a"
resolves to units 1 and 2 and spec "b" to unit 3; the set-level least
common subsumer is unit 5 (IC 1), while the pair (2, 3) has least common
subsumer 6 with IC 3, so the per-pair maximum of the claim is 3 ≠ 1. -/
theorem C5_resnik_sim_divergence :
    resnikSim c5Log2 c5St ['a'] ['b'] false false = some 1 ∧
    resnikSimClaim c5Log2 c5St ['a'] ['b'] false false = some 3 ∧
    (1 : ℚ) ≠ 3 := by
  have hg5 : getLu c5St 5 = c5u5 := by decide
  have hg6 : getLu c5St 6 = c5u6 := by decide
  have hic5 : IC c5Log2 c5St c5u5 true false false = some 1 := by
    show (if (((4 : Nat) : ℚ) / ((8 : Nat) : ℚ)) = 0 then none
        else some (-(c5Log2 (((4 : Nat) : ℚ) / ((8 : Nat) : ℚ))))) = some 1
    norm_num [c5Log2]
  have hic6 : IC c5Log2 c5St c5u6 true false false = some 3 := by
    show (if (((1 : Nat) : ℚ) / ((8 : Nat) : ℚ)) = 0 then none
        else some (-(c5Log2 (((1 : Nat) : ℚ) / ((8 : Nat) : ℚ))))) = some 3
    norm_num [c5Log2]
  have hics : resnikLcsIcs c5Log2 c5St ['a'] ['b'] false false = [some 1] := by
    have hlcs : leastCommonSubsumers c5St ['a'] ['b'] "HAS_HYPERONYM" = [5] := by
      decide
    unfold resnikLcsIcs
    rw [hlcs]
    simp only [List.map_cons, List.map_nil, hg5, hic5]
  have e1 : resnikSim c5Log2 c5St ['a'] ['b'] false false = some 1 := by
    unfold resnikSim
    rw [if_neg (by decide), hics]
    rfl
  have hcics : resnikClaimIcs c5Log2 c5St ['a'] ['b'] false false
      = [some 1, some 3] := by
    have hl1 : getLexUnits c5St ['a'] = [c5u1, c5u2] := by decide
    have hl2 : getLexUnits c5St ['b'] = [c5u3] := by decide
    have hp13 : lcsOfPair c5St c5u1.id c5u3.id "HAS_HYPERONYM" = [5] := by decide
    have hp23 : lcsOfPair c5St c5u2.id c5u3.id "HAS_HYPERONYM" = [6] := by decide
    unfold resnikClaimIcs
    rw [hl1, hl2]
    simp only [List.flatMap_cons, List.flatMap_nil, List.append_nil]
    rw [hp13, hp23]
    simp only [List.map_cons, List.map_nil, hg5, hg6, hic5, hic6]
    rfl
  have e2 : resnikSimClaim c5Log2 c5St ['a'] ['b'] false false = some 3 := by
    unfold resnikSimClaim
    rw [if_neg (by decide), hcics]
    show pyMaxOpt [some 1, some 3] = some 3
    simp only [pyMaxOpt, List.foldl_cons, List.foldl_nil, optMax2]
    norm_num
  exact ⟨e1, e2, by norm_num⟩

/-! ## `SimCornet.jiang_conrath_dist` -/

/-- `if min_dist is None or new_dist < min_dist: min_dist = new_dist`. -/
def updateMin (m : Option ℚ) (d : ℚ) : Option ℚ :=
  match m with
  | none => some d
  | some v => if d < v then some d else some v

/-- The least common subsumers of one pair of units, obtained — as
`jiang_conrath_dist` does — by converting each unit back to a spec with
`_lu_to_spec` and calling `least_common_subsumers` on the two specs. -/
def jcPairLcs (st : CornetState) (lu1 lu2 : LexUnit) : List Node :=
  leastCommonSubsumers st (luToSpec lu1) (luToSpec lu2) "HAS_HYPERONYM"

/-- The body of the `for lcs in ...` loop of `jiang_conrath_dist`: skip an
undefined IC, otherwise min-update with `ic1 + ic2 - 2 * lcs_ic`. -/
def jcInnerStep (log2 : ℚ → ℚ) (st : CornetState) (sm ct : Bool)
    (ic1 ic2 : ℚ) (m3 : Option ℚ) (lcs : Node) : Option ℚ :=
  match IC log2 st (getLu st lcs) true sm ct with
  | none => m3
  | some lcsIc => updateMin m3 (ic1 + ic2 - 2 * lcsIc)

/-- The body of the `for lu2 in lus2` loop: skip an undefined `ic2`,
otherwise run the lcs loop and then min-update with `ic1 + ic2`
unconditionally. -/
def jcPairStep (log2 : ℚ → ℚ) (st : CornetState) (sm ct : Bool)
    (lu1 : LexUnit) (ic1 : ℚ) (m2 : Option ℚ) (lu2 : LexUnit) : Option ℚ :=
  match IC log2 st lu2 true sm ct with
  | none => m2
  | some ic2 =>
    updateMin ((jcPairLcs st lu1 lu2).foldl (jcInnerStep log2 st sm ct ic1 ic2) m2)
      (ic1 + ic2)

/-- The body of the `for lu1 in lus1` loop: skip an undefined `ic1`,
otherwise run the inner loop over `lus2`. -/
def jcOuterStep (log2 : ℚ → ℚ) (st : CornetState) (sm ct : Bool)
    (lus2 : List LexUnit) (m1 : Option ℚ) (lu1 : LexUnit) : Option ℚ :=
  match IC log2 st lu1 true sm ct with
  | none => m1
  | some ic1 => lus2.foldl (jcPairStep log2 st sm ct lu1 ic1) m1

/-- `SimCornet.jiang_conrath_dist(lu_spec1, lu_spec2, smooth, cat_totals)`. -/
def jiangConrathDist (log2 : ℚ → ℚ) (st : CornetState) (spec1 spec2 : List Char)
    (sm ct : Bool) : Option ℚ :=
  (getLexUnits st spec1).foldl
    (jcOuterStep log2 st sm ct (getLexUnits st spec2)) none

/-- The candidate distances one pair of units actually contributes in the
code: one value per least common subsumer with defined IC, and `ic1 + ic2`
unconditionally; nothing when either unit's IC is undefined. -/
def jcPairCands (log2 : ℚ → ℚ) (st : CornetState) (sm ct : Bool)
    (lu1 lu2 : LexUnit) : List ℚ :=
  match IC log2 st lu1 true sm ct, IC log2 st lu2 true sm ct with
  | some ic1, some ic2 =>
    ((jcPairLcs st lu1 lu2).filterMap (fun lcs =>
      (IC log2 st (getLu st lcs) true sm ct).map
        (fun lcsIc => ic1 + ic2 - 2 * lcsIc))) ++ [ic1 + ic2]
  | _, _ => []

/-- All candidate distances over all unit pairs. -/
def jcCandidates (log2 : ℚ → ℚ) (st : CornetState) (spec1 spec2 : List Char)
    (sm ct : Bool) : List ℚ :=
  (getLexUnits st spec1).flatMap (fun lu1 =>
    (getLexUnits st spec2).flatMap (fun lu2 =>
      jcPairCands log2 st sm ct lu1 lu2))

/-- The claim's reading of a pair's contribution: over the pair's least
common subsumers when there are any, and `ic1 + ic2` only for a pair with
no least common subsumer. -/
def jcPairCandsClaim (log2 : ℚ → ℚ) (st : CornetState) (sm ct : Bool)
    (lu1 lu2 : LexUnit) : List ℚ :=
  match IC log2 st lu1 true sm ct, IC log2 st lu2 true sm ct with
  | some ic1, some ic2 =>
    if (jcPairLcs st lu1 lu2).isEmpty then [ic1 + ic2]
    else (jcPairLcs st lu1 lu2).filterMap (fun lcs =>
      (IC log2 st (getLu st lcs) true sm ct).map
        (fun lcsIc => ic1 + ic2 - 2 * lcsIc))
  | _, _ => []

/-- The claim's reading of `jiang_conrath_dist`. -/
def jiangConrathDistClaim (log2 : ℚ → ℚ) (st : CornetState)
    (spec1 spec2 : List Char) (sm ct : Bool) : Option ℚ :=
  ((getLexUnits st spec1).flatMap (fun lu1 =>
    (getLexUnits st spec2).flatMap (fun lu2 =>
      jcPairCandsClaim log2 st sm ct lu1 lu2))).foldl updateMin none

theorem updateMin_ne_none (m : Option ℚ) (x : ℚ) : updateMin m x ≠ none := by
  cases m with
  | none => exact Option.noConfusion
  | some v =>
    show (if x < v then some x else some v) ≠ none
    by_cases h : x < v
    · rw [if_pos h]; exact Option.noConfusion
    · rw [if_neg h]; exact Option.noConfusion

theorem updateMin_some {m : Option ℚ} {x v : ℚ} (h : updateMin m x = some v) :
    (v = x ∨ m = some v) ∧ v ≤ x ∧ ∀ w, m = some w → v ≤ w := by
  cases m with
  | none =>
    cases h
    exact ⟨Or.inl rfl, le_rfl, fun w hw => Option.noConfusion hw⟩
  | some w =>
    have h' : (if x < w then some x else some w) = some v := h
    by_cases hlt : x < w
    · rw [if_pos hlt] at h'
      cases h'
      exact ⟨Or.inl rfl, le_rfl, fun w' hw' => by
        cases hw'; exact le_of_lt hlt⟩
    · rw [if_neg hlt] at h'
      cases h'
      exact ⟨Or.inr rfl, le_of_not_lt hlt, fun w' hw' => by cases hw'; exact le_rfl⟩

theorem foldl_updateMin_none_iff :
    ∀ (l : List ℚ) (m : Option ℚ), l.foldl updateMin m = none ↔ m = none ∧ l = [] := by
  intro l
  induction l with
  | nil => intro m; simp [List.foldl_nil]
  | cons x l ih =>
    intro m
    rw [List.foldl_cons, ih]
    simp only [List.cons_ne_nil, and_false, iff_false]
    intro hc
    exact updateMin_ne_none m x hc.1

theorem foldl_updateMin_spec :
    ∀ (l : List ℚ) (m : Option ℚ) (d : ℚ), l.foldl updateMin m = some d →
      (m = some d ∨ d ∈ l) ∧ (∀ c ∈ l, d ≤ c) ∧ ∀ v, m = some v → d ≤ v := by
  intro l
  induction l with
  | nil =>
    intro m d h
    rw [List.foldl_nil] at h
    refine ⟨Or.inl h, fun c hc => absurd hc (List.not_mem_nil c), fun v hv => ?_⟩
    rw [h] at hv
    cases hv
    exact le_rfl
  | cons x l ih =>
    intro m d h
    rw [List.foldl_cons] at h
    obtain ⟨hmem, hall, hup⟩ := ih (updateMin m x) d h
    cases hu : updateMin m x with
    | none => exact absurd hu (updateMin_ne_none m x)
    | some v0 =>
      have hdv0 : d ≤ v0 := hup v0 hu
      obtain ⟨hv0, hv0x, hv0m⟩ := updateMin_some hu
      constructor
      · rcases hmem with hm | hm
        · rw [hu] at hm
          cases hm
          rcases hv0 with h' | h'
          · exact Or.inr (h' ▸ List.mem_cons_self d l)
          · exact Or.inl h'
        · exact Or.inr (List.mem_cons_of_mem x hm)
      · constructor
        · intro c hc
          rcases List.mem_cons.mp hc with hc' | hc'
          · subst hc'
            exact le_trans hdv0 hv0x
          · exact hall c hc'
        · intro v hv
          exact le_trans hdv0 (hv0m v hv)

theorem jcInner_eq (log2 : ℚ → ℚ) (st : CornetState) (sm ct : Bool)
    (ic1 ic2 : ℚ) :
    ∀ (l : List Node) (m : Option ℚ),
      l.foldl (jcInnerStep log2 st sm ct ic1 ic2) m =
        (l.filterMap (fun lcs => (IC log2 st (getLu st lcs) true sm ct).map
          (fun lcsIc => ic1 + ic2 - 2 * lcsIc))).foldl updateMin m := by
  intro l
  induction l with
  | nil => intro m; rfl
  | cons a l ih =>
    intro m
    rw [List.foldl_cons]
    cases hg : IC log2 st (getLu st a) true sm ct with
    | none =>
      simp only [List.filterMap_cons, hg, jcInnerStep, ih]
      rfl
    | some i =>
      simp only [List.filterMap_cons, hg, jcInnerStep, List.foldl_cons, ih]
      rfl

theorem jcPairCands_none_left (log2 : ℚ → ℚ) (st : CornetState) (sm ct : Bool)
    {lu1 : LexUnit} (lu2 : LexUnit) (h : IC log2 st lu1 true sm ct = none) :
    jcPairCands log2 st sm ct lu1 lu2 = [] := by
  unfold jcPairCands
  rw [h]

theorem jcMiddle_eq (log2 : ℚ → ℚ) (st : CornetState) (sm ct : Bool)
    {lu1 : LexUnit} {ic1 : ℚ} (hic1 : IC log2 st lu1 true sm ct = some ic1) :
    ∀ (lus2 : List LexUnit) (m : Option ℚ),
      lus2.foldl (jcPairStep log2 st sm ct lu1 ic1) m =
        (lus2.flatMap (fun lu2 => jcPairCands log2 st sm ct lu1 lu2)).foldl
          updateMin m := by
  intro lus2
  induction lus2 with
  | nil => intro m; rfl
  | cons lu2 lus2 ih =>
    intro m
    rw [List.foldl_cons, List.flatMap_cons, List.foldl_append]
    cases hic2 : IC log2 st lu2 true sm ct with
    | none =>
      have hstep : jcPairStep log2 st sm ct lu1 ic1 m lu2 = m := by
        unfold jcPairStep
        rw [hic2]
      have hcands : jcPairCands log2 st sm ct lu1 lu2 = [] := by
        unfold jcPairCands
        rw [hic1, hic2]
      rw [hstep, hcands, List.foldl_nil, ih]
    | some ic2 =>
      have hstep : jcPairStep log2 st sm ct lu1 ic1 m lu2 =
          updateMin ((jcPairLcs st lu1 lu2).foldl
            (jcInnerStep log2 st sm ct ic1 ic2) m) (ic1 + ic2) := by
        unfold jcPairStep
        rw [hic2]
      have hcands : jcPairCands log2 st sm ct lu1 lu2 =
          ((jcPairLcs st lu1 lu2).filterMap (fun lcs =>
            (IC log2 st (getLu st lcs) true sm ct).map
              (fun lcsIc => ic1 + ic2 - 2 * lcsIc))) ++ [ic1 + ic2] := by
        unfold jcPairCands
        rw [hic1, hic2]
      rw [hstep, hcands, List.foldl_append, List.foldl_cons, List.foldl_nil,
        jcInner_eq, ih]

theorem jcOuter_eq (log2 : ℚ → ℚ) (st : CornetState) (sm ct : Bool)
    (lus2 : List LexUnit) :
    ∀ (lus1 : List LexUnit) (m : Option ℚ),
      lus1.foldl (jcOuterStep log2 st sm ct lus2) m =
        (lus1.flatMap (fun lu1 => lus2.flatMap (fun lu2 =>
          jcPairCands log2 st sm ct lu1 lu2))).foldl updateMin m := by
  intro lus1
  induction lus1 with
  | nil => intro m; rfl
  | cons lu1 lus1 ih =>
    intro m
    rw [List.foldl_cons, List.flatMap_cons, List.foldl_append]
    cases hic1 : IC log2 st lu1 true sm ct with
    | none =>
      have hstep : jcOuterStep log2 st sm ct lus2 m lu1 = m := by
        unfold jcOuterStep
        rw [hic1]
      have hnil : lus2.flatMap (fun lu2 => jcPairCands log2 st sm ct lu1 lu2)
          = [] := by
        rw [List.flatMap_eq_nil_iff]
        intro lu2 _
        exact jcPairCands_none_left log2 st sm ct lu2 hic1
      rw [hstep, hnil, List.foldl_nil, ih]
    | some ic1 =>
      have hstep : jcOuterStep log2 st sm ct lus2 m lu1 =
          lus2.foldl (jcPairStep log2 st sm ct lu1 ic1) m := by
        unfold jcOuterStep
        rw [hic1]
      rw [hstep, jcMiddle_eq log2 st sm ct hic1, ih]

theorem jcPairCands_eq_nil_iff (log2 : ℚ → ℚ) (st : CornetState) (sm ct : Bool)
    (lu1 lu2 : LexUnit) :
    jcPairCands log2 st sm ct lu1 lu2 = [] ↔
      IC log2 st lu1 true sm ct = none ∨ IC log2 st lu2 true sm ct = none := by
  unfold jcPairCands
  cases h1 : IC log2 st lu1 true sm ct with
  | none => simp
  | some ic1 =>
    cases h2 : IC log2 st lu2 true sm ct with
    | none => simp
    | some ic2 => simp

/-- C6: `jiang_conrath_dist` is the minimum of the candidate values in which
every pair with both ICs defined contributes `ic1 + ic2 - 2 * IC(lcs)` for
each of its least common subsumers with defined IC AND `ic1 + ic2`
unconditionally — not only when the pair has no least common subsumer; it is
`None` exactly when no pair of resolved units has both information contents
defined; and a returned value is a member of, and a lower bound of, that
candidate list. -/
theorem C6_jiang_conrath_dist (log2 : ℚ → ℚ) (st : CornetState)
    (spec1 spec2 : List Char) (sm ct : Bool) :
    jiangConrathDist log2 st spec1 spec2 sm ct =
      (jcCandidates log2 st spec1 spec2 sm ct).foldl updateMin none ∧
    (jiangConrathDist log2 st spec1 spec2 sm ct = none ↔
      ∀ lu1 ∈ getLexUnits st spec1, ∀ lu2 ∈ getLexUnits st spec2,
        IC log2 st lu1 true sm ct = none ∨ IC log2 st lu2 true sm ct = none) ∧
    (∀ d, jiangConrathDist log2 st spec1 spec2 sm ct = some d →
      d ∈ jcCandidates log2 st spec1 spec2 sm ct ∧
        ∀ c ∈ jcCandidates log2 st spec1 spec2 sm ct, d ≤ c) := by
  have heq : jiangConrathDist log2 st spec1 spec2 sm ct =
      (jcCandidates log2 st spec1 spec2 sm ct).foldl updateMin none := by
    unfold jiangConrathDist jcCandidates
    rw [jcOuter_eq]
  refine ⟨heq, ?_, ?_⟩
  · rw [heq, foldl_updateMin_none_iff]
    simp only [true_and]
    unfold jcCandidates
    rw [List.flatMap_eq_nil_iff]
    constructor
    · intro h lu1 h1 lu2 h2
      have := h lu1 h1
      rw [List.flatMap_eq_nil_iff] at this
      exact (jcPairCands_eq_nil_iff log2 st sm ct lu1 lu2).mp (this lu2 h2)
    · intro h lu1 h1
      rw [List.flatMap_eq_nil_iff]
      intro lu2 h2
      exact (jcPairCands_eq_nil_iff log2 st sm ct lu1 lu2).mpr (h lu1 h1 lu2 h2)
  · intro d hd
    rw [heq] at hd
    obtain ⟨hmem, hall, _⟩ := foldl_updateMin_spec _ none d hd
    refine ⟨?_, hall⟩
    rcases hmem with hm | hm
    · exact Option.noConfusion hm
    · exact hm

def c6u1 : LexUnit := ⟨1, some ['u'], none, none, none, some 1⟩

def c6u2 : LexUnit := ⟨2, some ['v'], none, none, none, some 1⟩

def c6u3 : LexUnit := ⟨3, some ['z'], none, none, none, some 16⟩

def c6St : CornetState :=
  ⟨[(['u'], [c6u1]), (['v'], [c6u2]), (['z'], [c6u3])],
   [(1, c6u1), (2, c6u2), (3, c6u3)],
   ⟨[(1, 3, "HAS_HYPERONYM"), (2, 3, "HAS_HYPERONYM")]⟩,
   [(String.toList "all", 8)], "raw", 9⟩

/-- A base-2 logarithm table sufficient for the probabilities arising in
`c6St` (subcounts 1 and 16 over total 8). -/
def c6Log2 (q : ℚ) : ℚ := if q = 1/8 then -3 else if q = 2 then 1 else 0

theorem c6ic1 : IC c6Log2 c6St c6u1 true false false = some 3 := by
  show (if (((1 : Nat) : ℚ) / ((8 : Nat) : ℚ)) = 0 then none
      else some (-(c6Log2 (((1 : Nat) : ℚ) / ((8 : Nat) : ℚ))))) = some 3
  norm_num [c6Log2]

theorem c6ic2 : IC c6Log2 c6St c6u2 true false false = some 3 := by
  show (if (((1 : Nat) : ℚ) / ((8 : Nat) : ℚ)) = 0 then none
      else some (-(c6Log2 (((1 : Nat) : ℚ) / ((8 : Nat) : ℚ))))) = some 3
  norm_num [c6Log2]

theorem c6ic3 : IC c6Log2 c6St c6u3 true false false = some (-1) := by
  show (if (((16 : Nat) : ℚ) / ((8 : Nat) : ℚ)) = 0 then none
      else some (-(c6Log2 (((16 : Nat) : ℚ) / ((8 : Nat) : ℚ))))) = some (-1)
  norm_num [c6Log2]

theorem c6CodeEval :
    jiangConrathDist c6Log2 c6St ['u'] ['v'] false false = some 6 := by
  have hl1 : getLexUnits c6St ['u'] = [c6u1] := by decide
  have hl2 : getLexUnits c6St ['v'] = [c6u2] := by decide
  have hlcs : jcPairLcs c6St c6u1 c6u2 = [3] := by decide
  have hg3 : getLu c6St 3 = c6u3 := by decide
  unfold jiangConrathDist
  rw [hl1, hl2]
  rw [List.foldl_cons, List.foldl_nil]
  unfold jcOuterStep
  rw [c6ic1]
  show List.foldl (jcPairStep c6Log2 c6St false false c6u1 3) none [c6u2] = some 6
  rw [List.foldl_cons, List.foldl_nil]
  unfold jcPairStep
  rw [c6ic2]
  show updateMin (List.foldl (jcInnerStep c6Log2 c6St false false 3 3) none
    (jcPairLcs c6St c6u1 c6u2)) (3 + 3) = some 6
  rw [hlcs, List.foldl_cons, List.foldl_nil]
  unfold jcInnerStep
  rw [hg3, c6ic3]
  show updateMin (updateMin none (3 + 3 - 2 * (-1))) (3 + 3) = some 6
  norm_num [updateMin]

theorem c6ClaimEval :
    jiangConrathDistClaim c6Log2 c6St ['u'] ['v'] false false = some 8 := by
  have hl1 : getLexUnits c6St ['u'] = [c6u1] := by decide
  have hl2 : getLexUnits c6St ['v'] = [c6u2] := by decide
  have hlcs : jcPairLcs c6St c6u1 c6u2 = [3] := by decide
  have hg3 : getLu c6St 3 = c6u3 := by decide
  unfold jiangConrathDistClaim
  rw [hl1, hl2]
  simp only [List.flatMap_cons, List.flatMap_nil, List.append_nil]
  unfold jcPairCandsClaim
  rw [c6ic1, c6ic2, hlcs]
  simp only [List.isEmpty_cons, Bool.false_eq_true, if_false,
    List.filterMap_cons, List.filterMap_nil, hg3, c6ic3]
  show List.foldl updateMin none [3 + 3 - 2 * (-1)] = some 8
  rw [List.foldl_cons, List.foldl_nil]
  norm_num [updateMin]

/-- C6 counterexample: on `c6St` the pair ("u", "v") has least common
subsumer unit 3 with IC `-1`, so the claim's candidate set is
`{3 + 3 - 2 * (-1)} = {8}` — but the code additionally min-updates with
`ic1 + ic2 = 6` even though a least common subsumer exists, returning 6. -/
theorem C6_counterexample :
    jiangConrathDist c6Log2 c6St ['u'] ['v'] false false = some 6 ∧
    jiangConrathDistClaim c6Log2 c6St ['u'] ['v'] false false = some 8 ∧
    (6 : ℚ) ≠ 8 :=
  ⟨c6CodeEval, c6ClaimEval, by norm_num⟩

theorem C6_jiang_conrath_dist_witness :
    (6 : ℚ) ∈ jcCandidates c6Log2 c6St ['u'] ['v'] false false ∧
    ∀ c ∈ jcCandidates c6Log2 c6St ['u'] ['v'] false false, (6 : ℚ) ≤ c :=
  (C6_jiang_conrath_dist c6Log2 c6St ['u'] ['v'] false false).2.2 6 c6CodeEval

/-! ## Error behaviour of the public query pipeline -/

/-- The exceptions the embedded pipeline can raise: the `IndexError` of
`spec[-1]` on an empty relation spec, the `ValueError("unknown output
format: ...")` of the formatter lookups, and the `ValueError` for a
requested depth above the configured maximum. -/
inductive CornetErr where
  | indexError
  | unknownFormat
  | valueDepth
deriving DecidableEq

/-- The output formats `_get_lex_unit_formatter` / `_get_relation_formatter`
recognise. -/
def formatKnown (format : String) : Bool :=
  format == "spec" || format == "xml" || format == "raw"

/-- `if not format: format = self._output_format`: a falsy (empty) selector
falls back to the instance's default output format. -/
def effFormat (st : CornetState) (format : String) : String :=
  if format == "" then st.outputFormat else format

/-- `Cornet.test_lex_units_relation(from_lu_spec, rel_spec, to_lu_spec,
format)` as the source orders it, instrumented with a counter of how many
bidirectional searches have run before the function returns: parse the
relation spec (`IndexError` on an empty spec), resolve both unit specs, run
`_bidirectional_shortest_path`, and only then let `_reconstruct_path` fetch
the formatters, which raises on an unknown format — after the search. -/
def testLexUnitsRelationInstr (st : CornetState)
    (fromSpec relSpec toSpec : List Char) (format : String) :
    Nat × Except CornetErr (List PathTok) :=
  match splitRelSpec relSpec with
  | none => (0, Except.error CornetErr.indexError)
  | some (relName, depth) =>
    let fromLus := (getLexUnits st fromSpec).map (fun lu => lu.id)
    let toLus := (getLexUnits st toSpec).map (fun lu => lu.id)
    let res := bidirectionalShortestPath st.graph ⟨relName⟩ depth fromLus toLus
    if formatKnown (effFormat st format) then (1, Except.ok (reconstructPath res))
    else (1, Except.error CornetErr.unknownFormat)

/-- The hierarchical result of `_search_related_lex_units`: a dict from
relation tokens to dicts from related units to subtrees (raw format). -/
inductive RelTree where
  | node : List (RelName × List (Node × RelTree)) → RelTree

/-- Python dict assignment on the inner `to_lu_repr` level: overwrite in
place, or append a new key. -/
def dictSet (grp : List (Node × RelTree)) (k : Node) (v : RelTree) :
    List (Node × RelTree) :=
  if (List.lookup k grp).isSome then
    grp.map (fun p => if p.1 == k then (p.1, v) else p)
  else grp ++ [(k, v)]

/-- `from_lu_related[rel_repr][to_lu_repr] = to_lu_related` with the
`KeyError` fallback creating the inner dict. -/
def relTreeInsert (acc : List (RelName × List (Node × RelTree)))
    (rel : RelName) (toLu : Node) (sub : RelTree) :
    List (RelName × List (Node × RelTree)) :=
  match List.lookup rel acc with
  | some grp => acc.map (fun p => if p.1 == rel then (p.1, dictSet grp toLu sub) else p)
  | none => acc ++ [(rel, [(toLu, sub)])]

/-- `Cornet._search_related_lex_units`: depth-first expansion of the
matching out-edges of a unit, cycle-guarded by the visited path, cut off
once the path exceeds the depth.  The fuel bounds the recursion; the path
grows by one per level, so `depth + 1` suffices from the initial
single-unit path. -/
def searchRelated (g : Graph) (rel : RelName) (depth : Nat) :
    Nat → Node → List Node → RelTree
  | 0, _, _ => RelTree.node []
  | fuel + 1, fromLu, path =>
    RelTree.node
      (if path.length ≤ depth then
        (outEdges g [fromLu]).foldl (fun acc e =>
          if !(path.contains e.2.1) && relHasName e.2.2 rel then
            relTreeInsert acc e.2.2 e.2.1
              (searchRelated g rel depth fuel e.2.1 (path ++ [e.2.1]))
          else acc) []
      else [])

/-- `Cornet.get_related_lex_units(lu_spec, rel_spec, format)` in source
order: parse the relation spec (`IndexError` on an empty spec), apply the
maximum-depth policy for specs without a relation name, fetch both
formatters (unknown-format error here, before any search), then search from
every resolved unit. -/
def getRelatedLexUnits (st : CornetState) (luSpec relSpec : List Char)
    (format : String) : Except CornetErr (List (Node × RelTree)) :=
  match splitRelSpec relSpec with
  | none => Except.error CornetErr.indexError
  | some (relName, depth0) =>
    match (if relName.isEmpty then
        (if relSpec = ['+'] then Except.ok st.maxDepth
         else if st.maxDepth < depth0 then Except.error CornetErr.valueDepth
         else Except.ok depth0)
      else Except.ok depth0 : Except CornetErr Nat) with
    | Except.error e => Except.error e
    | Except.ok depth =>
      if formatKnown (effFormat st format) then
        Except.ok ((getLexUnits st luSpec).map (fun lu =>
          (lu.id, searchRelated st.graph ⟨relName⟩ depth (depth + 1) lu.id [lu.id])))
      else Except.error CornetErr.unknownFormat

theorem splitRelSpec_of_ne_nil {spec : List Char} (h : spec ≠ []) :
    ∃ p, splitRelSpec spec = some p := by
  unfold splitRelSpec
  cases hl : spec.getLast? with
  | none => exact absurd (List.getLast?_eq_none_iff.mp hl) h
  | some c => exact ⟨_, rfl⟩

/-- An all-empty store with default output format `"spec"`. -/
def c9St : CornetState := ⟨[], [], Graph.empty, [], "spec", 9⟩

/-- C9 counterexample: `test_lex_units_relation` with the unrecognized
format `"bogus"` raises the unknown-output-format error only with search
count 1 — the bidirectional search has already run — not before any search
work begins as the claim states. -/
theorem C9_counterexample :
    testLexUnitsRelationInstr c9St ['a'] ['R'] ['b'] "bogus"
      = (1, Except.error CornetErr.unknownFormat) ∧ (1 : Nat) ≠ 0 :=
  ⟨rfl, by decide⟩

/-- C9: for every store, every pair of unit specs, every non-empty relation
spec and every format selector whose effective value is not one of `spec`,
`xml`, `raw`, `test_lex_units_relation` raises the unknown-output-format
error only AFTER running its bidirectional path search exactly once (the
formatters are fetched inside `_reconstruct_path`, after the search). -/
theorem C9_unknown_format (st : CornetState)
    (fromSpec relSpec toSpec : List Char) (format : String)
    (hne : relSpec ≠ []) (hf : formatKnown (effFormat st format) = false) :
    testLexUnitsRelationInstr st fromSpec relSpec toSpec format
      = (1, Except.error CornetErr.unknownFormat) := by
  obtain ⟨⟨relName, depth⟩, hp⟩ := splitRelSpec_of_ne_nil hne
  unfold testLexUnitsRelationInstr
  rw [hp]
  show (if formatKnown (effFormat st format) then _ else _) = _
  rw [hf]
  rfl

theorem C9_unknown_format_witness :
    testLexUnitsRelationInstr c9St ['a'] ['R'] ['b'] "bogus"
      = (1, Except.error CornetErr.unknownFormat) :=
  C9_unknown_format c9St ['a'] ['R'] ['b'] "bogus" (by decide) (by decide)

/-- C10: the empty relation spec makes `_split_rel_spec` fail (`spec[-1]`
on an empty string is an `IndexError`), so both `test_lex_units_relation`
and `get_related_lex_units` propagate the error — with zero searches run
and for every store, unit spec and format — rather than treating the empty
spec as "any relation at depth 1". -/
theorem C10_empty_rel_spec (st : CornetState)
    (fromSpec toSpec luSpec : List Char) (format : String) :
    splitRelSpec [] = none ∧
    testLexUnitsRelationInstr st fromSpec [] toSpec format
      = (0, Except.error CornetErr.indexError) ∧
    getRelatedLexUnits st luSpec [] format
      = Except.error CornetErr.indexError :=
  ⟨rfl, rfl, rfl⟩

end Pycornetto
